import Mathlib

/-!
Verification development for the jsCrawler program (JsCrawlar.go).

The program is a sequential web crawler: it breadth-first crawls one domain,
extracts JavaScript resource URLs from each page's markup, and classifies each
discovered JS URL as good (HTTP status < 400) or bad (status >= 400 or a
transport error), writing three output files.

Shallow embedding conventions:
* Strings are modelled as `List Char` (`Str`), mirroring Go byte/char scans.
* The Go standard library pieces the program calls (`net/url.Parse`,
  `URL.String`, `URL.ResolveReference`, `url.URL.IsAbs`, `resolvePath`) are
  embedded faithfully for the fragment of behavior the program exercises;
  percent-escaping is modelled as the identity (the program never relies on
  escape processing) and the `User` (userinfo) field is not stored: parsing
  drops the userinfo before the host, as noted at `parse`.
* The HTML parser (golang.org/x/net/html) is an external collaborator: pages
  are modelled as already-parsed node trees (`Node`), with element nodes
  carrying a tag name and an attribute list, and traversal in document order.
* HTTP is modelled as a function from URL to an optional result: `none` is a
  transport failure (or unreadable body), `some` is a successful fetch.
-/

abbrev Str := List Char

/-- strings.HasPrefix for char lists: does `s` start with `p`. -/
def strStarts : Str → Str → Bool
  | [], _ => true
  | _ :: _, [] => false
  | c :: p, d :: s => c = d && strStarts p s

/-- strings.HasSuffix for char lists: does `s` end with `suf`. -/
def hasSuffix (s suf : Str) : Bool := strStarts suf.reverse s.reverse

/-- Split at the first occurrence of `c`: returns the part before and,
when `c` occurs, the part after it (Go's `split(s, c, true)`). -/
def splitFirst (c : Char) : Str → Str × Option Str
  | [] => ([], none)
  | x :: t =>
    if x = c then ([], some t)
    else
      let r := splitFirst c t
      (x :: r.1, r.2)

/-- Split at the first occurrence of `c`, keeping `c` with the tail
(Go's `authority, rest = authority[:i], authority[i:]`). -/
def spanUntil (c : Char) : Str → Str × Str
  | [] => ([], [])
  | x :: t =>
    if x = c then ([], x :: t)
    else
      let r := spanUntil c t
      (x :: r.1, r.2)

/-- The part of `s` after the last '@' (whole string when no '@'):
Go's `parseAuthority` host extraction, with userinfo dropped. -/
def afterLastAt (s : Str) : Str := (s.reverse.takeWhile (fun c => ¬ c = '@')).reverse

/-- The first path segment: everything before the first '/'. -/
def firstSegment (s : Str) : Str := (spanUntil '/' s).1

/-- `base[:strings.LastIndex(base, "/")+1]` — the base path up to and
including its last slash, empty when base has no slash. -/
def upToLastSlash (s : Str) : Str := (s.reverse.dropWhile (fun c => ¬ c = '/')).reverse

/-- Split on every occurrence of `c` (like strings.Split); never returns []. -/
def splitAll (c : Char) : Str → List Str
  | [] => [[]]
  | x :: t =>
    if x = c then [] :: splitAll c t
    else
      match splitAll c t with
      | [] => [[x]]
      | h :: r => (x :: h) :: r

/-- Join segments with '/' between them. -/
def joinSlash : List Str → Str
  | [] => []
  | [x] => x
  | x :: r => x ++ '/' :: joinSlash r

/-- Dot-segment processing stack step: ".." pops the last output segment but
never removes the root (a lone leading empty segment); "." is dropped. -/
def dotSegAux : List Str → List Str → List Str
  | out, [] => out
  | out, seg :: rest =>
    if seg = ['.'] then dotSegAux out rest
    else if seg = ['.', '.'] then
      dotSegAux (if out = [[]] then out else out.dropLast) rest
    else dotSegAux (out ++ [seg]) rest

/-- Ensure a leading '/' (Go's resolvePath always returns a rooted path). -/
def forceLeadSlash (s : Str) : Str := if strStarts ['/'] s then s else '/' :: s

/-- RFC 3986 remove_dot_segments with a forced leading '/', as Go's
`resolvePath` performs after merging; returns "" only for empty input. -/
def removeDotSegments (full : Str) : Str :=
  let elems := splitAll '/' full
  let out := dotSegAux [] elems
  let out := if elems.getLastD [] = ['.'] ∨ elems.getLastD [] = ['.', '.'] then out ++ [[]] else out
  forceLeadSlash (joinSlash out)

/-- Go's `resolvePath(base, ref)`: merge per RFC 3986 section 5.3 then remove
dot segments; empty merge result stays empty. -/
def resolvePath (base ref : Str) : Str :=
  let full :=
    if ref = [] then base
    else if ¬ strStarts ['/'] ref then upToLastSlash base ++ ref
    else ref
  if full = [] then [] else removeDotSegments full

/-- The URL record, mirroring Go's `url.URL` fields used by the program:
Scheme, Opaque (here `opq`), Host, OmitHost, Path, ForceQuery, RawQuery,
Fragment. The `User` field is always nil in this program's URL values (the
model drops userinfo at parse time). -/
structure URL where
  scheme : Str
  opq : Str
  host : Str
  omitHost : Bool
  path : Str
  forceQuery : Bool
  rawQuery : Str
  fragment : Str
deriving Repr, DecidableEq

/-- Go `URL.IsAbs`: the URL carries a scheme. -/
def URL.isAbs (u : URL) : Bool := ¬ u.scheme = []

/-- Is `c` valid inside a scheme after the first character. -/
def schemeCharOK (c : Char) : Bool := c.isAlpha || c.isDigit || c = '+' || c = '-' || c = '.'

/-- Scanner for Go's `getScheme`: `full` is the whole input (returned on the
no-scheme outcomes), `acc` the consumed candidate. `none` is the
"missing protocol scheme" error; `some ([], full)` means no scheme. -/
def getSchemeAux (full : Str) (acc : Str) : Str → Option (Str × Str)
  | [] => some ([], full)
  | c :: rest =>
    if c.isAlpha then getSchemeAux full (acc ++ [c]) rest
    else if c.isDigit || c = '+' || c = '-' || c = '.' then
      if acc = [] then some ([], full) else getSchemeAux full (acc ++ [c]) rest
    else if c = ':' then
      if acc = [] then none else some (acc.map Char.toLower, rest)
    else some ([], full)

/-- Go's `getScheme`: returns (scheme, rest); scheme is [] when absent. -/
def getScheme (s : Str) : Option (Str × Str) := getSchemeAux s [] s

/-- Go's `stringContainsCTLByte`. -/
def containsCTL (s : Str) : Bool := s.any (fun c => c.toNat < 0x20 || c.toNat = 0x7f)

/-- Go's query split in `parse`: the trailing-'?'-only case sets ForceQuery,
otherwise split at the first '?'. Returns (rest, forceQuery, rawQuery). -/
def parseQueryPart (rest : Str) : Str × Bool × Str :=
  if hasSuffix rest ['?'] && ¬ (rest.dropLast.contains '?') then
    (rest.dropLast, true, [])
  else
    match splitFirst '?' rest with
    | (r, none) => (r, false, [])
    | (r, some q) => (r, false, q)

/-- The tail of Go's `url.Parse` after fragment, scheme and query have been
split off: the opaque case, the "first path segment in URL cannot contain
colon" error, the authority case (userinfo dropped, the program never reads
`User`), the omit-host case, and the plain path case. -/
def parseTail (scheme rest2 : Str) (fq : Bool) (rq frag : Str) : Option URL :=
  if ¬ strStarts ['/'] rest2 ∧ ¬ scheme = [] then
    some ⟨scheme, rest2, [], false, [], fq, rq, frag⟩
  else if ¬ strStarts ['/'] rest2 ∧ (firstSegment rest2).contains ':' then
    none
  else if (¬ scheme = [] ∨ ¬ strStarts ['/', '/', '/'] rest2) ∧ strStarts ['/', '/'] rest2 then
    let after := rest2.drop 2
    let ar := spanUntil '/' after
    some ⟨scheme, [], afterLastAt ar.1, false, ar.2, fq, rq, frag⟩
  else if ¬ scheme = [] ∧ strStarts ['/'] rest2 then
    some ⟨scheme, [], [], true, rest2, fq, rq, frag⟩
  else
    some ⟨scheme, [], [], false, rest2, fq, rq, frag⟩

/-- Go's `url.Parse` (viaRequest = false), for the behavior this program
exercises: control-byte check, fragment split, scheme scan (lowercased),
query split, then `parseTail` for the remaining cases.
Percent-escape validation is not modelled. -/
def parse (raw : Str) : Option URL :=
  if containsCTL raw then none
  else
    let fr := splitFirst '#' raw
    let frag := match fr.2 with | none => [] | some f => f
    match getScheme fr.1 with
    | none => none
    | some (scheme, rest1) =>
      let qp := parseQueryPart rest1
      parseTail scheme qp.1 qp.2.1 qp.2.2 frag

/-- The query part as `URL.String()` emits it: present iff ForceQuery is
set or RawQuery is nonempty. -/
def queryEmit (fq : Bool) (rq : Str) : Str := if fq = true ∨ ¬ rq = [] then '?' :: rq else []

/-- The fragment part as `URL.String()` emits it: present iff nonempty. -/
def fragEmit (f : Str) : Str := if f = [] then [] else '#' :: f

/-- Go's `URL.String()` for URLs with nil `User`, mirroring its emission
rules: scheme, opaque, the "//" rule, OmitHost, the rootless-path slash
guard, the "./" disambiguation guard, ForceQuery, fragment. -/
def URL.toStr (u : URL) : Str :=
  let schemePart := if u.scheme = [] then [] else u.scheme ++ [':']
  let body :=
    if ¬ u.opq = [] then u.opq
    else
      let hostPart :=
        if ¬ u.scheme = [] ∨ ¬ u.host = [] then
          if u.omitHost ∧ u.host = [] then []
          else if ¬ u.host = [] ∨ ¬ u.path = [] then '/' :: '/' :: u.host
          else []
        else []
      let pathPart :=
        if ¬ u.path = [] ∧ ¬ strStarts ['/'] u.path ∧ ¬ u.host = [] then '/' :: u.path
        else u.path
      let pathPart :=
        if u.scheme = [] ∧ hostPart = [] ∧ (firstSegment pathPart).contains ':' then
          '.' :: '/' :: pathPart
        else pathPart
      hostPart ++ pathPart
  let queryPart := if u.forceQuery ∨ ¬ u.rawQuery = [] then '?' :: u.rawQuery else []
  let fragPart := if u.fragment = [] then [] else '#' :: u.fragment
  schemePart ++ body ++ queryPart ++ fragPart

/-- Go's `URL.ResolveReference` for refs with nil `User`. The `ref.Opaque`
branch clears host and path; otherwise the absolute/net-path case keeps the
ref's authority, and the relative cases merge against the base. -/
def resolveReference (u ref : URL) : URL :=
  let sch := if ref.scheme = [] then u.scheme else ref.scheme
  if ¬ ref.scheme = [] ∨ ¬ ref.host = [] then
    { ref with scheme := sch, path := resolvePath ref.path [] }
  else if ¬ ref.opq = [] then
    { ref with scheme := sch, host := [], path := [] }
  else
    let emptyRef := ref.path = [] ∧ ¬ ref.forceQuery ∧ ref.rawQuery = []
    { scheme := sch
      opq := ref.opq
      host := u.host
      omitHost := ref.omitHost
      path := resolvePath u.path ref.path
      forceQuery := ref.forceQuery
      rawQuery := if emptyRef then u.rawQuery else ref.rawQuery
      fragment := if emptyRef ∧ ref.fragment = [] then u.fragment else ref.fragment }

/-- The program's `resolveURL(base, href)`: parse href; on error return "";
if absolute return its string form; else parse base (error gives "") and
resolve the reference against it. -/
def resolveURL (base href : Str) : Str :=
  match parse href with
  | none => []
  | some u =>
    if u.isAbs then u.toStr
    else
      match parse base with
      | none => []
      | some bu => (resolveReference bu u).toStr

/-- The program's `sameDomain(link, domain)`: link parses and its Host
equals domain exactly. -/
def sameDomain (link domain : Str) : Bool :=
  match parse link with
  | none => false
  | some u => u.host = domain

/-- A parsed HTML document node (the html.Parse collaborator's output):
element nodes expose tag name and attribute list; all other node kinds
(document, text, comment, doctype) only matter for their children, which the
traversal visits regardless of type. -/
inductive Node where
  | element (tag : Str) (attrs : List (Str × Str)) (children : List Node)
  | nonElement (children : List Node)

/-! Tag, attribute and value literals the extractor compares against. -/

def jsSuffix : Str := ['.', 'j', 's']
def scriptTag : Str := ['s', 'c', 'r', 'i', 'p', 't']
def linkTag : Str := ['l', 'i', 'n', 'k']
def aTag : Str := ['a']
def srcAttr : Str := ['s', 'r', 'c']
def relAttr : Str := ['r', 'e', 'l']
def asAttr : Str := ['a', 's']
def hrefAttr : Str := ['h', 'r', 'e', 'f']
def mpVal : Str := ['m', 'o', 'd', 'u', 'l', 'e', 'p', 'r', 'e', 'l', 'o', 'a', 'd']
def pfVal : Str := ['p', 'r', 'e', 'f', 'e', 't', 'c', 'h']

/-- The script branch of `extractJS`: every "src" attribute is resolved and
kept iff the resolved string ends in ".js". -/
def scriptOut (base : Str) (attrs : List (Str × Str)) : List Str :=
  attrs.filterMap (fun a =>
    if a.1 = srcAttr then
      let u := resolveURL base a.2
      if hasSuffix u jsSuffix then some u else none
    else none)

/-- The link branch's attribute collection: the switch over the attribute
list leaves the last occurrence of each of rel / as / href, defaulting to
the empty string. -/
def linkRAH (attrs : List (Str × Str)) : Str × Str × Str :=
  attrs.foldl (fun rah a =>
    if a.1 = relAttr then (a.2, rah.2.1, rah.2.2)
    else if a.1 = asAttr then (rah.1, a.2, rah.2.2)
    else if a.1 = hrefAttr then (rah.1, rah.2.1, a.2)
    else rah) ([], [], [])

/-- The link branch of `extractJS`: rel must be exactly "modulepreload" or
"prefetch", as must be exactly "script", and the resolved href must end in
".js". -/
def linkOut (base : Str) (attrs : List (Str × Str)) : List Str :=
  let rah := linkRAH attrs
  if (rah.1 = mpVal ∨ rah.1 = pfVal) ∧ rah.2.1 = scriptTag then
    let u := resolveURL base rah.2.2
    if hasSuffix u jsSuffix then [u] else []
  else []

mutual
/-- The recursive walker of `extractJS`: element nodes named "script" or
"link" contribute their candidates, then all children are visited in order. -/
def extractJSNode (base : Str) : Node → List Str
  | .element tag attrs children =>
    (if tag = scriptTag then scriptOut base attrs else []) ++
    (if tag = linkTag then linkOut base attrs else []) ++
    extractJSList base children
  | .nonElement children => extractJSList base children

def extractJSList (base : Str) : List Node → List Str
  | [] => []
  | n :: ns => extractJSNode base n ++ extractJSList base ns
end

mutual
/-- The recursive walker of `extractLinks`: every "href" attribute of an "a"
element is resolved and appended unconditionally. -/
def extractLinksNode (base : Str) : Node → List Str
  | .element tag attrs children =>
    (if tag = aTag then
      attrs.filterMap (fun at_ =>
        if at_.1 = hrefAttr then some (resolveURL base at_.2) else none)
     else []) ++
    extractLinksList base children
  | .nonElement children => extractLinksList base children

def extractLinksList (base : Str) : List Node → List Str
  | [] => []
  | n :: ns => extractLinksNode base n ++ extractLinksList base ns
end

/-- The crawl-phase state of `main`: the `seen` set, the FIFO `queue`, the
accumulated `jsSet` (sets modelled as insertion-ordered duplicate-free
lists, matching Go map-key semantics), plus `fetched`, a log of the pages an
HTTP GET was issued for (one entry per loop iteration). -/
structure CrawlState where
  seen : List Str
  queue : List Str
  jsSet : List Str
  fetched : List Str
deriving Repr, DecidableEq

/-- Set insert on the list model of a Go map: `m[k] = true`. -/
def insertIfAbsent (x : Str) (l : List Str) : List Str := if x ∈ l then l else l ++ [x]

/-- The link loop of `main`: each extracted link that is same-domain and
unseen is added to the seen set and appended to the queue, in order; the
seen check uses the set as updated by earlier links of the same page. -/
def enqueueLinks (domain : Str) (links : List Str) (sq : List Str × List Str) :
    List Str × List Str :=
  links.foldl
    (fun sq link =>
      if sameDomain link domain ∧ ¬ link ∈ sq.1 then (sq.1 ++ [link], sq.2 ++ [link])
      else sq)
    sq

/-- One iteration of the crawl loop: pop the queue front, GET the page
(`web page = none` models a fetch or body-read failure, which skips the
page), union extracted JS URLs into jsSet, and enqueue each extracted link
that is same-domain and unseen, marking it seen at enqueue time. -/
def crawlStep (web : Str → Option Node) (domain : Str) (st : CrawlState) : CrawlState :=
  match st.queue with
  | [] => st
  | page :: rest =>
    let st1 : CrawlState := ⟨st.seen, rest, st.jsSet, st.fetched ++ [page]⟩
    match web page with
    | none => st1
    | some doc =>
      let js := (extractJSNode page doc).foldl (fun s j => insertIfAbsent j s) st1.jsSet
      let sq := enqueueLinks domain (extractLinksNode page doc) (st1.seen, st1.queue)
      ⟨sq.1, sq.2, js, st1.fetched⟩

/-- The crawl loop, fuel-indexed (the Go loop runs until the queue empties;
any finite run is captured by a sufficiently large fuel). -/
def crawlLoop (web : Str → Option Node) (domain : Str) : Nat → CrawlState → CrawlState
  | 0, st => st
  | n + 1, st =>
    match st.queue with
    | [] => st
    | _ :: _ => crawlLoop web domain n (crawlStep web domain st)

/-- The root URL `fmt.Sprintf("%s://%s/", scheme, domain)`. -/
def rootURL (scheme domain : Str) : Str := scheme ++ ':' :: '/' :: '/' :: domain ++ ['/']

/-- The initial crawl state: seen = {root}, queue = [root]. -/
def initState (root : Str) : CrawlState := ⟨[root], [root], [], []⟩

/-- A JS URL probes reachable iff the GET succeeds with status < 400.
`probe u = none` models a transport error. -/
def reachable (probe : Str → Option Nat) (u : Str) : Bool :=
  match probe u with
  | none => false
  | some status => status < 400

/-- The verification loop of `main`: each jsSet entry is probed in order;
reachable entries are appended to the good list, all others to the bad list. -/
def classify (probe : Str → Option Nat) (jsSet : List Str) : List Str × List Str :=
  jsSet.foldl (fun gb js => if reachable probe js then (gb.1 ++ [js], gb.2) else (gb.1, gb.2 ++ [js]))
    ([], [])

/-- The observable output of a run: which files were written (name and
lines) and which URLs the verification phase probed. -/
structure RunOutput where
  files : List (Str × List Str)
  probed : List Str
deriving Repr, DecidableEq

/-- `main` after argument handling: crawl, then — only when jsSet is
non-empty — create and write the three output files and probe every JS URL.
An empty jsSet returns early with no files created and no probes issued. -/
def mainRun (web : Str → Option Node) (probe : Str → Option Nat)
    (domain scheme : Str) (fuel : Nat) : RunOutput :=
  let root := rootURL scheme domain
  let final := crawlLoop web domain fuel (initState root)
  if final.jsSet.length = 0 then ⟨[], []⟩
  else
    let gb := classify probe final.jsSet
    ⟨[(domain ++ ('_' :: "all_js.txt".toList), final.jsSet),
      (domain ++ ('_' :: "good_js.txt".toList), gb.1),
      (domain ++ ('_' :: "bad_js.txt".toList), gb.2)], final.jsSet⟩

/-! Concrete fixtures used by the theorems below. -/

def exBase : Str := "https://example.com/".toList
def exAbout : Str := "https://example.com/about".toList
def exDomain : Str := "example.com".toList

/-- The seed page of the two-page end-to-end scenario. -/
def exDoc1 : Node := .nonElement [
  .element scriptTag [(srcAttr, "/app.js".toList)] [],
  .element aTag [(hrefAttr, "/about".toList)] []]

/-- The about page of the two-page end-to-end scenario. -/
def exDoc2 : Node := .nonElement [
  .element linkTag [(relAttr, mpVal), (asAttr, scriptTag), (hrefAttr, "/chunk1.js".toList)] []]

/-- The two-page site of the end-to-end scenario. -/
def exampleWeb (u : Str) : Option Node :=
  if u = exBase then some exDoc1
  else if u = exAbout then some exDoc2
  else none

/-- A web where every fetch fails. -/
def noWeb (_ : Str) : Option Node := none

/-- A probe where every request fails at the transport layer. -/
def noProbe (_ : Str) : Option Nat := none

/-- A reference that fails to parse: Go's "missing protocol scheme" error. -/
def badRef : Str := [':', 'b', 'a', 'd']

/-- A page URL that itself ends in ".js", exercising the link branch with a
missing href attribute. -/
def weirdBase : Str := "https://example.com/weird.js".toList

/-- The crawl-loop invariant: no page is fetched or queued twice (the log of
issued GETs together with the pending queue is duplicate-free), everything
fetched or queued is in the seen set, and the seen set is duplicate-free. -/
def CrawlInv (st : CrawlState) : Prop :=
  (st.fetched ++ st.queue).Nodup ∧ (∀ u ∈ st.fetched ++ st.queue, u ∈ st.seen) ∧ st.seen.Nodup

/-- A scheme string as `parse` outputs it: nonempty, leading letter, valid
scheme characters, already lowercase. -/
def schemeCanon (s : Str) : Prop :=
  (match s with | [] => False | c :: _ => c.isAlpha = true) ∧
  ∀ c ∈ s, schemeCharOK c = true ∧ c.toLower = c

/-- A scheme-shaped input string (leading letter, valid scheme characters),
not necessarily lowercase. -/
def schemeInputOK (s : Str) : Prop :=
  (match s with | [] => False | c :: _ => c.isAlpha = true) ∧ ∀ c ∈ s, schemeCharOK c = true

/-- The canonical-URL class: every URL produced by `parse`, and every URL
`resolveReference` builds from parsed components, lies in this class, and on
it serialization followed by re-parsing reproduces the same string. -/
def Canon (v : URL) : Prop :=
  (v.scheme = [] ∨ schemeCanon v.scheme) ∧
  ('@' ∉ v.host ∧ '/' ∉ v.host ∧ '?' ∉ v.host ∧ '#' ∉ v.host) ∧
  ('?' ∉ v.path ∧ '#' ∉ v.path) ∧
  '#' ∉ v.rawQuery ∧
  ('?' ∉ v.opq ∧ '#' ∉ v.opq ∧ strStarts ['/'] v.opq = false) ∧
  (¬ v.opq = [] → v.host = [] ∧ v.path = [] ∧ ¬ v.scheme = []) ∧
  (¬ v.host = [] → v.path = [] ∨ strStarts ['/'] v.path = true) ∧
  (v.omitHost = true → v.host = [] ∧ ¬ v.scheme = [] ∧ strStarts ['/'] v.path = true ∧
    strStarts ['/', '/'] v.path = false) ∧
  (¬ v.scheme = [] → v.host = [] → v.opq = [] → v.omitHost = false →
    v.path = [] ∨ strStarts ['/'] v.path = true) ∧
  (v.scheme = [] → v.host = [] → strStarts ['/'] v.path = false → ':' ∉ firstSegment v.path)

/-- Witness URL for the resolution-idempotence theorem. -/
def uWitness : URL := ⟨"https".toList, [], exDomain, false, ['/', 'a'], false, [], []⟩

/-! ## Theorems -/

/-- Membership in the script branch output of the extractor. -/
theorem scriptOut_mem (base : Str) (attrs : List (Str × Str)) (u : Str) :
    u ∈ scriptOut base attrs ↔
      ∃ href, (srcAttr, href) ∈ attrs ∧ resolveURL base href = u ∧ hasSuffix u jsSuffix = true := by
  unfold scriptOut
  rw [List.mem_filterMap]
  constructor
  · rintro ⟨⟨k, v⟩, hmem, hf⟩
    dsimp only at hf
    split at hf
    · next hk =>
      split at hf
      · next hs =>
        cases hf
        exact ⟨v, by rwa [hk] at hmem, rfl, hs⟩
      · cases hf
    · cases hf
  · rintro ⟨href, hmem, hres, hsuf⟩
    exact ⟨(srcAttr, href), hmem, by simp [hres, hsuf]⟩

/-- C1: on the two-page example site (seed page with script src "/app.js"
and anchor "/about"; about page with a modulepreload-as-script link to
"/chunk1.js" and no further links) the crawl loop fetches exactly 2 pages,
ends with a visited set of size 2 and an empty queue, and accumulates
exactly the JS resource set {"https://example.com/app.js",
"https://example.com/chunk1.js"}. -/
theorem crawl_end_to_end :
    (crawlLoop exampleWeb exDomain 3 (initState exBase)).fetched.length = 2 ∧
    (crawlLoop exampleWeb exDomain 3 (initState exBase)).seen.length = 2 ∧
    (crawlLoop exampleWeb exDomain 3 (initState exBase)).jsSet =
      ["https://example.com/app.js".toList, "https://example.com/chunk1.js".toList] ∧
    (crawlLoop exampleWeb exDomain 3 (initState exBase)).queue = [] := by
  decide

/-- C2: a script element with a src attribute contributes its resolved URL
iff the full resolved string ends with the literal, case-sensitive ".js";
concretely, "/a/b.js" resolved against "https://example.com/" is included,
while "/a/b.JS", "/a/b.js.map" and "foo.js?v=2" (whose resolved string
carries a trailing query) are excluded. -/
theorem script_suffix_rule :
    (∀ (base : Str) (attrs : List (Str × Str)) (u : Str),
      u ∈ extractJSNode base (.element scriptTag attrs []) ↔
        ∃ href, (srcAttr, href) ∈ attrs ∧ resolveURL base href = u ∧ hasSuffix u jsSuffix = true) ∧
    extractJSNode exBase (.element scriptTag [(srcAttr, "/a/b.js".toList)] []) =
      ["https://example.com/a/b.js".toList] ∧
    extractJSNode exBase (.element scriptTag [(srcAttr, "/a/b.JS".toList)] []) = [] ∧
    extractJSNode exBase (.element scriptTag [(srcAttr, "/a/b.js.map".toList)] []) = [] ∧
    extractJSNode exBase (.element scriptTag [(srcAttr, "foo.js?v=2".toList)] []) = [] := by
  refine ⟨fun base attrs u => ?_, by decide, by decide, by decide, by decide⟩
  rw [extractJSNode]
  have hsl : (scriptTag = linkTag) = False := by decide
  simp only [if_pos rfl, hsl, if_false, extractJSList, List.append_nil, eq_self_iff_true, if_true]
  exact scriptOut_mem base attrs u

/-- C3 counterexample: a link element with rel="modulepreload" and
as="script" but NO href attribute contributes the page's own URL when that
URL ends in ".js" — the code never requires href to be present (a missing
href is the empty string, which resolves to the page URL itself). -/
theorem link_missing_href_contributes :
    extractJSNode weirdBase (.element linkTag [(relAttr, mpVal), (asAttr, scriptTag)] []) =
      [weirdBase] := by
  decide

/-- C3 amended: a link element contributes the resolution of its collected
href (defaulting to the empty string when absent, later duplicates
overriding earlier ones) iff the collected rel is exactly "modulepreload" or
"prefetch", the collected as is exactly "script", and the resolved URL ends
in ".js"; presence of href is NOT required. -/
theorem link_rule :
    ∀ (base : Str) (attrs : List (Str × Str)) (u : Str),
      u ∈ extractJSNode base (.element linkTag attrs []) ↔
        ((linkRAH attrs).1 = mpVal ∨ (linkRAH attrs).1 = pfVal) ∧
        (linkRAH attrs).2.1 = scriptTag ∧
        u = resolveURL base (linkRAH attrs).2.2 ∧ hasSuffix u jsSuffix = true := by
  intro base attrs u
  rw [extractJSNode]
  have hls : (linkTag = scriptTag) = False := by decide
  simp only [hls, if_false, if_pos rfl, extractJSList, List.append_nil, List.nil_append,
    eq_self_iff_true, if_true]
  unfold linkOut
  constructor
  · intro hmem
    dsimp only at hmem
    split at hmem
    · next hc =>
      split at hmem
      · next hs =>
        rcases List.mem_singleton.mp hmem with rfl
        exact ⟨hc.1, hc.2, rfl, hs⟩
      · cases hmem
    · cases hmem
  · rintro ⟨h1, h2, rfl, hs⟩
    simp only [h1, h2, hs, and_self, eq_self_iff_true, if_true, and_true, true_and]
    exact List.mem_singleton.mpr rfl

/-- C5: the domain filter accepts a link iff it parses and its host equals
the target domain by exact string comparison; a subdomain does not match,
and a parse failure yields false. -/
theorem sameDomain_spec :
    (∀ link domain : Str, sameDomain link domain = true ↔
      ∃ u, parse link = some u ∧ u.host = domain) ∧
    sameDomain "http://sub.example.com/x".toList exDomain = false ∧
    (∀ link domain : Str, parse link = none → sameDomain link domain = false) := by
  refine ⟨fun link domain => ?_, by decide, fun link domain h => ?_⟩
  · unfold sameDomain
    cases hp : parse link with
    | none => simp
    | some u =>
      simp only [decide_eq_true_eq]
      constructor
      · intro h; exact ⟨u, rfl, h⟩
      · rintro ⟨u', hu', h⟩; cases hu'; exact h
  · unfold sameDomain; rw [h]

/-- Witness for `sameDomain_spec`: the parse-failure clause applied at the
unparseable link ":bad". -/
theorem sameDomain_spec_witness : sameDomain badRef exDomain = false :=
  sameDomain_spec.2.2 badRef exDomain (by decide)

/-- C8: whenever the crawl ends with an empty JS resource set, the run ends
early: no output file is created and no verification probe is issued. -/
theorem emptyJS_no_output (web : Str → Option Node) (probe : Str → Option Nat)
    (domain scheme : Str) (fuel : Nat)
    (h : (crawlLoop web domain fuel (initState (rootURL scheme domain))).jsSet = []) :
    mainRun web probe domain scheme fuel = ⟨[], []⟩ := by
  simp [mainRun, h]

/-- Witness for `emptyJS_no_output`: a web where every fetch fails yields an
empty JS set and hence no files and no probes. -/
theorem emptyJS_no_output_witness :
    (crawlLoop noWeb exDomain 2 (initState (rootURL "https".toList exDomain))).jsSet = [] ∧
    mainRun noWeb noProbe exDomain "https".toList 2 = ⟨[], []⟩ :=
  ⟨by decide, emptyJS_no_output noWeb noProbe exDomain "https".toList 2 (by decide)⟩

/-- C7 counterexample: an anchor whose href fails to parse (":bad", Go's
"missing protocol scheme" error) is NOT omitted from the link extractor's
output — the extractor appends the empty string produced by `resolveURL`,
so linkURLs is [""] rather than []. -/
theorem failed_resolution_link_entry :
    parse badRef = none ∧
    resolveURL exBase badRef = [] ∧
    extractLinksNode exBase (.element aTag [(hrefAttr, badRef)] []) = [[]] := by
  decide

/-- C7 amended: a reference whose resolution fails contributes nothing to
jsURLs and never aborts extraction of the remaining elements, but in
linkURLs it is not omitted: the anchor contributes the empty string (which
the downstream domain filter rejects for any nonempty domain). -/
theorem failed_resolution_rule :
    (∀ base href : Str, parse href = none → resolveURL base href = []) ∧
    (∀ (base href : Str) (attrs : List (Str × Str)), parse href = none →
      scriptOut base (attrs ++ [(srcAttr, href)]) = scriptOut base attrs) ∧
    (∀ (base href : Str) (ns : List Node), parse href = none →
      extractLinksList base (.element aTag [(hrefAttr, href)] [] :: ns) =
        [] :: extractLinksList base ns) ∧
    (∀ (href domain : Str), parse href = none → ¬ domain = [] →
      ∀ base, sameDomain (resolveURL base href) domain = false) := by
  have hres : ∀ base href : Str, parse href = none → resolveURL base href = [] := by
    intro base href h
    unfold resolveURL
    rw [h]
  refine ⟨hres, ?_, ?_, ?_⟩
  · intro base href attrs h
    unfold scriptOut
    rw [List.filterMap_append]
    have : List.filterMap (fun a : Str × Str =>
        if a.1 = srcAttr then
          let u := resolveURL base a.2
          if hasSuffix u jsSuffix then some u else none
        else none) [(srcAttr, href)] = [] := by
      simp only [List.filterMap, hres base href h]
      decide
    rw [this, List.append_nil]
  · intro base href ns h
    rw [extractLinksList, extractLinksNode]
    simp only [if_pos rfl, extractLinksList, List.append_nil]
    simp [hres base href h, List.filterMap]
  · intro href domain h hd base
    rw [hres base href h]
    unfold sameDomain
    have : parse ([] : Str) = some ⟨[], [], [], false, [], false, [], []⟩ := by decide
    rw [this]
    simpa using fun hh => hd hh

/-- Witness for `failed_resolution_rule`, at the concrete failing href
":bad" on the example base. -/
theorem failed_resolution_rule_witness :
    scriptOut exBase [(srcAttr, badRef)] = scriptOut exBase [] ∧
    extractLinksList exBase [.element aTag [(hrefAttr, badRef)] []] = [[]] ∧
    sameDomain (resolveURL exBase badRef) exDomain = false :=
  ⟨by
    have h := failed_resolution_rule.2.1 exBase badRef [] (by decide)
    simpa using h,
   by
    have h := failed_resolution_rule.2.2.1 exBase badRef [] (by decide)
    simpa using h,
   failed_resolution_rule.2.2.2 badRef exDomain (by decide) (by decide) exBase⟩

/-- The verification fold splits the set into the reachable and unreachable
filters, in order. -/
theorem classify_foldl (probe : Str → Option Nat) :
    ∀ (l g b : List Str),
      l.foldl (fun gb js =>
          if reachable probe js then (gb.1 ++ [js], gb.2) else (gb.1, gb.2 ++ [js])) (g, b) =
        (g ++ l.filter (fun u => reachable probe u),
         b ++ l.filter (fun u => ! reachable probe u)) := by
  intro l
  induction l with
  | nil => intro g b; simp
  | cons x t ih =>
    intro g b
    by_cases hx : reachable probe x = true
    · simp [List.foldl_cons, List.filter_cons, hx, ih]
    · rw [Bool.not_eq_true] at hx
      simp [List.foldl_cons, List.filter_cons, hx, ih]

/-- `classify` computes the two complementary filters of the JS set. -/
theorem classify_eq (probe : Str → Option Nat) (l : List Str) :
    classify probe l =
      (l.filter (fun u => reachable probe u), l.filter (fun u => ! reachable probe u)) := by
  unfold classify
  rw [classify_foldl]
  simp only [List.nil_append]

/-- Complementary filters split the length. -/
theorem filter_length_split (p : Str → Bool) (l : List Str) :
    (l.filter p).length + (l.filter fun a => ! p a).length = l.length := by
  induction l with
  | nil => simp
  | cons x t ih =>
    by_cases hx : p x = true
    · simp [List.filter_cons, hx]
      omega
    · rw [Bool.not_eq_true] at hx
      simp [List.filter_cons, hx]
      omega

/-- C4: on a non-empty JS resource set the verification phase is a total,
mutually exclusive partition — |good| + |bad| = |jsSet|, no URL lands in
both lists, a URL is in one of the two lists iff it is in the set, and the
decision rule is: transport failure or status >= 400 goes to bad, status
< 400 goes to good. -/
theorem verify_partition (probe : Str → Option Nat) (jsSet : List Str) (_hne : ¬ jsSet = []) :
    (classify probe jsSet).1.length + (classify probe jsSet).2.length = jsSet.length ∧
    (∀ u, ¬ (u ∈ (classify probe jsSet).1 ∧ u ∈ (classify probe jsSet).2)) ∧
    (∀ u, (u ∈ (classify probe jsSet).1 ∨ u ∈ (classify probe jsSet).2) ↔ u ∈ jsSet) ∧
    (∀ u ∈ jsSet,
      (probe u = none → u ∈ (classify probe jsSet).2) ∧
      (∀ st, probe u = some st → 400 ≤ st → u ∈ (classify probe jsSet).2) ∧
      (∀ st, probe u = some st → st < 400 → u ∈ (classify probe jsSet).1)) := by
  rw [classify_eq]
  refine ⟨filter_length_split _ _, ?_, ?_, ?_⟩
  · rintro u ⟨h1, h2⟩
    rw [List.mem_filter] at h1 h2
    have hr := h1.2
    have hn := h2.2
    simp [hr] at hn
  · intro u
    constructor
    · rintro (h | h) <;> exact (List.mem_filter.mp h).1
    · intro hu
      by_cases hr : reachable probe u = true
      · exact Or.inl (List.mem_filter.mpr ⟨hu, hr⟩)
      · rw [Bool.not_eq_true] at hr
        exact Or.inr (List.mem_filter.mpr ⟨hu, by simp [hr]⟩)
  · intro u hu
    refine ⟨fun hp => ?_, fun st hp hge => ?_, fun st hp hlt => ?_⟩
    · exact List.mem_filter.mpr ⟨hu, by simp [reachable, hp]⟩
    · refine List.mem_filter.mpr ⟨hu, ?_⟩
      simp [reachable, hp, Nat.not_lt.mpr hge]
    · exact List.mem_filter.mpr ⟨hu, by simp [reachable, hp, hlt]⟩

/-- Witness for `verify_partition`: a singleton set whose probe fails at the
transport layer is classified bad, and the partition sizes add up. -/
theorem verify_partition_witness :
    (classify noProbe ["https://example.com/app.js".toList]).1.length +
      (classify noProbe ["https://example.com/app.js".toList]).2.length = 1 ∧
    "https://example.com/app.js".toList ∈ (classify noProbe ["https://example.com/app.js".toList]).2 := by
  have h := verify_partition noProbe ["https://example.com/app.js".toList] (by decide)
  exact ⟨h.1, (h.2.2.2 _ (by decide)).1 rfl⟩

/-- Appending a fresh element preserves duplicate-freedom. -/
theorem nodup_append_singleton :
    ∀ (l : List Str) (x : Str), l.Nodup → x ∉ l → (l ++ [x]).Nodup := by
  intro l
  induction l with
  | nil => intro x _ _; simp
  | cons a t ih =>
    intro x h hx
    rw [List.cons_append]
    refine List.nodup_cons.mpr ⟨?_, ih x (List.nodup_cons.mp h).2
      (fun hh => hx (List.mem_cons_of_mem _ hh))⟩
    intro hmem
    rcases List.mem_append.mp hmem with h1 | h1
    · exact (List.nodup_cons.mp h).1 h1
    · rcases List.mem_singleton.mp h1 with rfl
      exact hx (List.mem_cons_self _ _)

/-- Unfolding one link of the enqueue loop. -/
theorem enqueueLinks_cons (domain link : Str) (t : List Str) (sq : List Str × List Str) :
    enqueueLinks domain (link :: t) sq =
      enqueueLinks domain t
        (if sameDomain link domain ∧ ¬ link ∈ sq.1 then (sq.1 ++ [link], sq.2 ++ [link]) else sq) := by
  rfl

/-- The enqueue loop preserves the crawl invariant relative to a fixed fetch
log, and only grows the seen set. -/
theorem enqueueLinks_spec (domain : Str) (fetched : List Str) :
    ∀ (links : List Str) (sq : List Str × List Str),
      (fetched ++ sq.2).Nodup → (∀ u ∈ fetched ++ sq.2, u ∈ sq.1) → sq.1.Nodup →
      (fetched ++ (enqueueLinks domain links sq).2).Nodup ∧
      (∀ u ∈ fetched ++ (enqueueLinks domain links sq).2, u ∈ (enqueueLinks domain links sq).1) ∧
      (enqueueLinks domain links sq).1.Nodup ∧
      sq.1 ⊆ (enqueueLinks domain links sq).1 := by
  intro links
  induction links with
  | nil => intro sq h1 h2 h3; exact ⟨h1, h2, h3, fun _ h => h⟩
  | cons link t ih =>
    intro sq h1 h2 h3
    rw [enqueueLinks_cons]
    by_cases hc : sameDomain link domain ∧ ¬ link ∈ sq.1
    · rw [if_pos hc]
      have hnotin : link ∉ fetched ++ sq.2 := fun h => hc.2 (h2 _ h)
      have p1 : (fetched ++ (sq.2 ++ [link])).Nodup := by
        rw [← List.append_assoc]
        exact nodup_append_singleton _ _ h1 hnotin
      have p2 : ∀ u ∈ fetched ++ (sq.2 ++ [link]), u ∈ sq.1 ++ [link] := by
        intro u hu
        rw [← List.append_assoc] at hu
        rcases List.mem_append.mp hu with h' | h'
        · exact List.mem_append_left _ (h2 _ h')
        · exact List.mem_append_right _ h'
      have p3 : (sq.1 ++ [link]).Nodup := nodup_append_singleton _ _ h3 hc.2
      have hres := ih (sq.1 ++ [link], sq.2 ++ [link]) p1 p2 p3
      exact ⟨hres.1, hres.2.1, hres.2.2.1,
        fun u hu => hres.2.2.2 (List.mem_append_left _ hu)⟩
    · rw [if_neg hc]
      exact ih sq h1 h2 h3

/-- One crawl step preserves the crawl invariant and only grows seen. -/
theorem crawlStep_inv (web : Str → Option Node) (domain : Str) (st : CrawlState)
    (h : CrawlInv st) :
    CrawlInv (crawlStep web domain st) ∧ st.seen ⊆ (crawlStep web domain st).seen := by
  obtain ⟨h1, h2, h3⟩ := h
  cases hq : st.queue with
  | nil =>
    simp only [crawlStep, hq]
    exact ⟨⟨h1, h2, h3⟩, fun _ h => h⟩
  | cons page rest =>
    rw [hq] at h1 h2
    have hassoc : st.fetched ++ [page] ++ rest = st.fetched ++ page :: rest := by
      rw [List.append_assoc, List.singleton_append]
    cases hw : web page with
    | none =>
      simp only [crawlStep, hq, hw]
      refine ⟨⟨?_, ?_, h3⟩, fun _ h => h⟩
      · rw [hassoc]; exact h1
      · rw [hassoc]; exact h2
    | some doc =>
      simp only [crawlStep, hq, hw]
      have hpre1 : ((st.fetched ++ [page]) ++ rest).Nodup := by rw [hassoc]; exact h1
      have hpre2 : ∀ u ∈ (st.fetched ++ [page]) ++ rest, u ∈ st.seen := by
        rw [hassoc]; exact h2
      have hres := enqueueLinks_spec domain (st.fetched ++ [page])
        (extractLinksNode page doc) (st.seen, rest) hpre1 hpre2 h3
      exact ⟨⟨hres.1, hres.2.1, hres.2.2.1⟩, hres.2.2.2⟩

/-- An empty queue makes the crawl loop a no-op. -/
theorem crawlLoop_nil (web : Str → Option Node) (domain : Str) :
    ∀ (n : Nat) (st : CrawlState), st.queue = [] → crawlLoop web domain n st = st := by
  intro n
  induction n with
  | zero => intro st _; rfl
  | succ k _ => intro st h; rw [crawlLoop, h]

/-- The crawl loop preserves the crawl invariant and only grows seen. -/
theorem crawlLoop_inv (web : Str → Option Node) (domain : Str) :
    ∀ (n : Nat) (st : CrawlState), CrawlInv st →
      CrawlInv (crawlLoop web domain n st) ∧ st.seen ⊆ (crawlLoop web domain n st).seen := by
  intro n
  induction n with
  | zero => intro st h; exact ⟨h, fun _ hh => hh⟩
  | succ k ih =>
    intro st h
    rw [crawlLoop]
    cases hq : st.queue with
    | nil => exact ⟨h, fun _ hh => hh⟩
    | cons page rest =>
      have hs := crawlStep_inv web domain st h
      have hl := ih _ hs.1
      exact ⟨hl.1, fun u hu => hl.2 (hs.2 hu)⟩

/-- Fuel composition for the crawl loop. -/
theorem crawlLoop_add (web : Str → Option Node) (domain : Str) :
    ∀ (a b : Nat) (st : CrawlState),
      crawlLoop web domain (a + b) st = crawlLoop web domain b (crawlLoop web domain a st) := by
  intro a
  induction a with
  | zero => intro b st; rw [Nat.zero_add]; rfl
  | succ k ih =>
    intro b st
    have hcomm : k + 1 + b = (k + b) + 1 := by omega
    rw [hcomm]
    cases hq : st.queue with
    | nil =>
      rw [crawlLoop, hq, crawlLoop, hq, crawlLoop_nil web domain b st hq]
    | cons page rest =>
      rw [crawlLoop, hq, crawlLoop, hq]
      exact ih b (crawlStep web domain st)

/-- C6: throughout every crawl run from the seeded initial state, the
visited set grows monotonically, every queued URL is already in the visited
set, the visited set holds no duplicates, and no URL string is ever fetched
or enqueued twice (the fetch log together with the pending queue is
duplicate-free) — deduplication being string equality on the resolved URL. -/
theorem crawl_invariants (web : Str → Option Node) (domain root : Str) (m n : Nat)
    (h : m ≤ n) :
    (crawlLoop web domain m (initState root)).seen ⊆
      (crawlLoop web domain n (initState root)).seen ∧
    CrawlInv (crawlLoop web domain n (initState root)) := by
  have hInit : CrawlInv (initState root) :=
    ⟨by simp [initState], by simp [initState], by simp [initState]⟩
  obtain ⟨k, rfl⟩ := Nat.exists_eq_add_of_le h
  rw [crawlLoop_add]
  have h1 := crawlLoop_inv web domain m (initState root) hInit
  have h2 := crawlLoop_inv web domain k _ h1.1
  exact ⟨h2.2, h2.1⟩

/-- Witness for `crawl_invariants` at concrete fuels 1 and 2 on the
two-page example site. -/
theorem crawl_invariants_witness :
    (crawlLoop exampleWeb exDomain 1 (initState exBase)).seen ⊆
      (crawlLoop exampleWeb exDomain 2 (initState exBase)).seen ∧
    CrawlInv (crawlLoop exampleWeb exDomain 2 (initState exBase)) :=
  crawl_invariants exampleWeb exDomain exBase 1 2 (by decide)

/-- A prefix of `s` is a prefix of any extension of `s`. -/
theorem strStarts_append_of : ∀ (p s r : Str), strStarts p s = true → strStarts p (s ++ r) = true := by
  intro p
  induction p with
  | nil => intro s r _; rfl
  | cons c p ih =>
    intro s r h
    cases s with
    | nil => cases h
    | cons d t =>
      rw [List.cons_append]
      rw [strStarts] at h ⊢
      simp only [Bool.and_eq_true] at h ⊢
      exact ⟨h.1, ih t r h.2⟩

/-- Splitting on an absent character returns the whole string. -/
theorem splitFirst_not_mem : ∀ (c : Char) (s : Str), c ∉ s → splitFirst c s = (s, none) := by
  intro c s
  induction s with
  | nil => intro _; rfl
  | cons x t ih =>
    intro h
    rw [splitFirst]
    rw [if_neg (fun hh : x = c => h (hh ▸ List.mem_cons_self x t))]
    rw [ih (fun hh => h (List.mem_cons_of_mem x hh))]

/-- Splitting at the first occurrence of `c`. -/
theorem splitFirst_append : ∀ (c : Char) (a b : Str), c ∉ a →
    splitFirst c (a ++ c :: b) = (a, some b) := by
  intro c a
  induction a with
  | nil => intro b _; simp [splitFirst]
  | cons x t ih =>
    intro b h
    rw [List.cons_append, splitFirst]
    rw [if_neg (fun hh : x = c => h (hh ▸ List.mem_cons_self x t))]
    rw [ih b (fun hh => h (List.mem_cons_of_mem x hh))]

/-- Scanning to an absent character consumes the whole string. -/
theorem spanUntil_not_mem : ∀ (c : Char) (s : Str), c ∉ s → spanUntil c s = (s, []) := by
  intro c s
  induction s with
  | nil => intro _; rfl
  | cons x t ih =>
    intro h
    rw [spanUntil]
    rw [if_neg (fun hh : x = c => h (hh ▸ List.mem_cons_self x t))]
    rw [ih (fun hh => h (List.mem_cons_of_mem x hh))]

/-- Scanning to the first occurrence of `c` keeps it with the tail. -/
theorem spanUntil_append : ∀ (c : Char) (a b : Str), c ∉ a →
    spanUntil c (a ++ c :: b) = (a, c :: b) := by
  intro c a
  induction a with
  | nil => intro b _; simp [spanUntil]
  | cons x t ih =>
    intro b h
    rw [List.cons_append, spanUntil]
    rw [if_neg (fun hh : x = c => h (hh ▸ List.mem_cons_self x t))]
    rw [ih b (fun hh => h (List.mem_cons_of_mem x hh))]

/-- Without an '@' the authority is all host. -/
theorem afterLastAt_not_mem (s : Str) (h : '@' ∉ s) : afterLastAt s = s := by
  unfold afterLastAt
  rw [List.takeWhile_eq_self_iff.mpr, List.reverse_reverse]
  intro c hc
  have : c ∈ s := List.mem_reverse.mp hc
  simp only [decide_eq_true_eq]
  intro heq
  exact h (heq ▸ this)

/-- Control-byte detection distributes over append. -/
theorem containsCTL_append (a b : Str) :
    containsCTL (a ++ b) = (containsCTL a || containsCTL b) := by
  unfold containsCTL
  exact List.any_append

/-- Scheme characters are never control bytes. -/
theorem schemeCharOK_not_ctl (c : Char) (h : schemeCharOK c = true) :
    (decide (c.toNat < 0x20) || decide (c.toNat = 0x7f)) = false := by
  simp only [schemeCharOK, Char.isAlpha, Char.isUpper, Char.isLower, Char.isDigit,
    Bool.or_eq_true, Bool.and_eq_true, decide_eq_true_eq] at h
  simp only [Bool.or_eq_false_iff, decide_eq_false_iff_not, Nat.not_lt]
  rcases h with ((((⟨h1, h2⟩ | ⟨h1, h2⟩) | ⟨h1, h2⟩) | hc) | hc) | hc
  · have g1 : 65 ≤ c.toNat := h1
    have g2 : c.toNat ≤ 90 := h2
    omega
  · have g1 : 97 ≤ c.toNat := h1
    have g2 : c.toNat ≤ 122 := h2
    omega
  · have g1 : 48 ≤ c.toNat := h1
    have g2 : c.toNat ≤ 57 := h2
    omega
  · subst hc; decide
  · subst hc; decide
  · subst hc; decide

/-- The scheme scanner finds the scheme before the first ':' when all
preceding characters are scheme characters, the candidate starts with a
letter, and the candidate is nonempty. -/
theorem getSchemeAux_found :
    ∀ (p acc full r : Str),
      (∀ c ∈ p, schemeCharOK c = true) →
      (acc = [] → ∃ c t, p = c :: t ∧ c.isAlpha = true) →
      ¬ (acc ++ p) = [] →
      getSchemeAux full acc (p ++ ':' :: r) = some ((acc ++ p).map Char.toLower, r) := by
  intro p
  induction p with
  | nil =>
    intro acc full r _ _ hne
    rw [List.append_nil] at hne ⊢
    rw [List.nil_append, getSchemeAux]
    rw [if_neg (by decide : ¬ ((':' : Char).isAlpha = true))]
    rw [if_neg (by decide :
      ¬ (((':' : Char).isDigit || (':' : Char) = '+' || (':' : Char) = '-' || (':' : Char) = '.') = true))]
    rw [if_pos (rfl : (':' : Char) = ':')]
    rw [if_neg hne]
  | cons c t ih =>
    intro acc full r hok hhead hne
    have hc : schemeCharOK c = true := hok c (List.mem_cons_self _ _)
    rw [List.cons_append, getSchemeAux]
    have hgoal : acc ++ c :: t = (acc ++ [c]) ++ t := by
      rw [List.append_assoc, List.singleton_append]
    rw [hgoal]
    by_cases ha : c.isAlpha = true
    · rw [if_pos ha]
      exact ih (acc ++ [c]) full r (fun d hd => hok d (List.mem_cons_of_mem _ hd))
        (fun h => absurd h (by simp)) (by simp)
    · rw [Bool.not_eq_true] at ha
      have hd : (c.isDigit || c = '+' || c = '-' || c = '.') = true := by
        have hh := hc
        simp only [schemeCharOK, ha, Bool.false_or] at hh
        exact hh
      rw [if_neg (by simp [ha]), if_pos hd]
      have hacc : ¬ acc = [] := by
        intro h
        obtain ⟨d, tt, heq, halpha⟩ := hhead h
        cases heq
        rw [halpha] at ha
        cases ha
      rw [if_neg hacc]
      exact ih (acc ++ [c]) full r (fun d hd2 => hok d (List.mem_cons_of_mem _ hd2))
        (fun h => absurd h (by simp)) (by simp)

/-- Go's `getScheme` on a well-formed scheme followed by ':'. -/
theorem getScheme_found (sch r : Str) (h : schemeInputOK sch) :
    getScheme (sch ++ ':' :: r) = some (sch.map Char.toLower, r) := by
  obtain ⟨hhead, hok⟩ := h
  have hne : ¬ sch = [] := by
    intro he
    rw [he] at hhead
    exact hhead
  have hex : ∃ c t, sch = c :: t ∧ c.isAlpha = true := by
    cases sch with
    | nil => exact absurd rfl hne
    | cons c t => exact ⟨c, t, rfl, hhead⟩
  have := getSchemeAux_found sch [] (sch ++ ':' :: r) r hok (fun _ => hex) (by simpa using hne)
  rw [getScheme, this, List.nil_append]

/-- The scheme scanner reports no scheme when the string is a run of scheme
characters followed by nothing or by a non-scheme character other than ':'. -/
theorem getSchemeAux_none :
    ∀ (p acc full r : Str),
      (∀ c ∈ p, schemeCharOK c = true) →
      (r = [] ∨ ∃ c t, r = c :: t ∧ schemeCharOK c = false ∧ ¬ c = ':') →
      getSchemeAux full acc (p ++ r) = some ([], full) := by
  intro p
  induction p with
  | nil =>
    intro acc full r _ hr
    rw [List.nil_append]
    rcases hr with rfl | ⟨c, t, rfl, hok, hcolon⟩
    · rfl
    · rw [getSchemeAux]
      have hparts := hok
      simp only [schemeCharOK, Bool.or_eq_false_iff] at hparts
      obtain ⟨⟨⟨⟨hA, hD⟩, hP⟩, hM⟩, hDot⟩ := hparts
      rw [if_neg (by simp [hA]), if_neg (by simp [hD, hP, hM, hDot]), if_neg hcolon]
  | cons c t ih =>
    intro acc full r hok hr
    have hc := hok c (List.mem_cons_self _ _)
    rw [List.cons_append, getSchemeAux]
    by_cases ha : c.isAlpha = true
    · rw [if_pos ha]
      exact ih (acc ++ [c]) full r (fun d hd => hok d (List.mem_cons_of_mem _ hd)) hr
    · rw [Bool.not_eq_true] at ha
      have hd : (c.isDigit || c = '+' || c = '-' || c = '.') = true := by
        have hh := hc
        simp only [schemeCharOK, ha, Bool.false_or] at hh
        exact hh
      rw [if_neg (by simp [ha]), if_pos hd]
      by_cases hacc : acc = []
      · rw [if_pos hacc]
      · rw [if_neg hacc]
        exact ih (acc ++ [c]) full r (fun d hd2 => hok d (List.mem_cons_of_mem _ hd2)) hr

/-- A URL string built from a scheme and an authority part parses to the
expected components, for any scheme-shaped input. -/
theorem parse_any_scheme (sch : Str) (h : schemeInputOK sch) :
    parse (sch ++ ':' :: "//host/a.js".toList) =
      some ⟨sch.map Char.toLower, [], "host".toList, false, "/a.js".toList, false, [], []⟩ := by
  obtain ⟨hhead, hok⟩ := h
  have hne : ¬ sch = [] := by
    intro he; rw [he] at hhead; exact hhead
  have hsharp : ('#' : Char) ∉ sch ++ ':' :: "//host/a.js".toList := by
    intro hmem
    rcases List.mem_append.mp hmem with hm | hm
    · exact absurd (hok _ hm) (by decide)
    · revert hm; decide
  have hctl : ¬ containsCTL (sch ++ ':' :: "//host/a.js".toList) = true := by
    rw [containsCTL_append]
    have h1 : containsCTL sch = false := by
      rw [containsCTL, List.any_eq_false]
      intro c hc
      have hcc := schemeCharOK_not_ctl c (hok c hc)
      intro hcontra
      rw [hcc] at hcontra
      cases hcontra
    rw [h1]
    decide
  have hsplit : splitFirst '#' (sch ++ ':' :: "//host/a.js".toList) =
      (sch ++ ':' :: "//host/a.js".toList, none) := splitFirst_not_mem _ _ hsharp
  have hscheme := getScheme_found sch "//host/a.js".toList ⟨hhead, hok⟩
  have hmapne : ¬ (sch.map Char.toLower) = [] := by
    simpa using hne
  have hqp : parseQueryPart "//host/a.js".toList = ("//host/a.js".toList, false, []) := by decide
  rw [parse, if_neg hctl]
  simp only [hsplit, hscheme, hqp]
  rw [parseTail]
  rw [if_neg (fun hcond => hcond.1 (by decide))]
  rw [if_neg (fun hcond => hcond.1 (by decide))]
  rw [if_pos ⟨Or.inl hmapne, by decide⟩]
  simp only [Option.some.injEq, URL.mk.injEq, and_true, true_and]
  exact ⟨by decide, by decide⟩

/-- Serialization of a URL with a nonempty host (and no opaque part): the
authority is always emitted after "//". -/
theorem toStr_authority (s h0 p q f : Str) (om fq : Bool) (hh : ¬ h0 = [])
    (hp : p = [] ∨ strStarts ['/'] p = true) :
    URL.toStr ⟨s, [], h0, om, p, fq, q, f⟩ =
      (if s = [] then [] else s ++ [':']) ++ '/' :: '/' :: h0 ++ p ++
      queryEmit fq q ++ fragEmit f := by
  unfold queryEmit fragEmit
  rw [URL.toStr]
  dsimp only
  rw [if_neg (fun hc : ¬ ([] : Str) = [] => hc rfl)]
  rw [if_pos (Or.inr hh)]
  rw [if_neg (fun hc : om = true ∧ h0 = [] => hh hc.2)]
  rw [if_pos (Or.inl hh)]
  have hguard : ¬ (¬ p = [] ∧ ¬ strStarts ['/'] p = true ∧ ¬ h0 = []) := by
    rcases hp with rfl | hst
    · exact fun hc => hc.1 rfl
    · exact fun hc => hc.2.1 hst
  rw [if_neg hguard]
  rw [if_neg (fun hc : s = [] ∧ '/' :: '/' :: h0 = [] ∧ _ => List.noConfusion hc.2.1)]
  simp only [List.append_assoc]

/-- A suffix of the right part is a suffix of the whole. -/
theorem hasSuffix_append_of (a b suf : Str) (h : hasSuffix b suf = true) :
    hasSuffix (a ++ b) suf = true := by
  unfold hasSuffix at *
  rw [List.reverse_append]
  exact strStarts_append_of _ _ _ h

/-- C10: the extractor imposes no scheme restriction on JS resources — for
ANY scheme-shaped scheme string, a script src (or a
modulepreload-as-script link href) of the form "<scheme>://host/a.js"
resolves to its (lowercased-scheme) absolute form and is included in
jsURLs; only the ".js" suffix and the rel/as values are checked. -/
theorem any_scheme_js_included (sch base : Str) (h : schemeInputOK sch) :
    resolveURL base (sch ++ "://host/a.js".toList) =
      sch.map Char.toLower ++ "://host/a.js".toList ∧
    hasSuffix (resolveURL base (sch ++ "://host/a.js".toList)) jsSuffix = true ∧
    resolveURL base (sch ++ "://host/a.js".toList) ∈
      extractJSNode base (.element scriptTag [(srcAttr, sch ++ "://host/a.js".toList)] []) ∧
    resolveURL base (sch ++ "://host/a.js".toList) ∈
      extractJSNode base (.element linkTag
        [(relAttr, mpVal), (asAttr, scriptTag), (hrefAttr, sch ++ "://host/a.js".toList)] []) := by
  have hne : ¬ sch = [] := by
    intro he
    have := h.1
    rw [he] at this
    exact this
  have hmapne : ¬ (sch.map Char.toLower) = [] := by simpa using hne
  have e0 : ("://host/a.js".toList : Str) = ':' :: "//host/a.js".toList := rfl
  have hp := parse_any_scheme sch h
  have hres : resolveURL base (sch ++ ':' :: "//host/a.js".toList) =
      sch.map Char.toLower ++ ':' :: "//host/a.js".toList := by
    rw [resolveURL, hp]
    dsimp only
    rw [if_pos (by simp [URL.isAbs, hmapne])]
    rw [toStr_authority _ _ _ _ _ _ _ (by decide) (Or.inr (by decide))]
    rw [if_neg hmapne]
    rw [show queryEmit false [] = [] from rfl, show fragEmit [] = [] from rfl]
    simp only [List.append_assoc, List.append_nil]
    rfl
  have hsuf : hasSuffix (sch.map Char.toLower ++ ':' :: "//host/a.js".toList) jsSuffix = true :=
    hasSuffix_append_of _ _ _ (by decide)
  refine ⟨by rw [e0, hres], by rw [e0, hres]; exact hsuf, ?_, ?_⟩
  · rw [e0, extractJSNode]
    rw [if_pos rfl, if_neg (by decide : ¬ scriptTag = linkTag)]
    rw [extractJSList]
    rw [List.append_nil, List.append_nil]
    exact (scriptOut_mem _ _ _).mpr ⟨_, List.mem_singleton.mpr rfl, rfl, by rw [hres]; exact hsuf⟩
  · rw [e0, extractJSNode]
    rw [if_neg (by decide : ¬ linkTag = scriptTag), if_pos rfl]
    rw [extractJSList]
    rw [List.append_nil, List.nil_append]
    have hrah : linkRAH [(relAttr, mpVal), (asAttr, scriptTag),
        (hrefAttr, sch ++ ':' :: "//host/a.js".toList)] =
        (mpVal, scriptTag, sch ++ ':' :: "//host/a.js".toList) := rfl
    rw [linkOut, hrah]
    rw [if_pos ⟨Or.inl rfl, rfl⟩]
    rw [hres]
    rw [if_pos hsuf]
    exact List.mem_singleton.mpr rfl

/-- Witness for `any_scheme_js_included` at the non-HTTP scheme "ftp". -/
theorem any_scheme_js_included_witness :
    resolveURL exBase ("ftp".toList ++ "://host/a.js".toList) = "ftp://host/a.js".toList ∧
    resolveURL exBase ("ftp".toList ++ "://host/a.js".toList) ∈
      extractJSNode exBase
        (.element scriptTag [(srcAttr, "ftp".toList ++ "://host/a.js".toList)] []) := by
  have hs : schemeInputOK "ftp".toList := by
    constructor
    · show ('f').isAlpha = true
      decide
    · decide
  have h := any_scheme_js_included "ftp".toList exBase hs
  refine ⟨?_, h.2.2.1⟩
  rw [h.1]
  decide

/-- Lowercasing is the identity on already-lowercase strings. -/
theorem map_toLower_id (s : Str) (h : ∀ c ∈ s, Char.toLower c = c) :
    s.map Char.toLower = s := by
  conv_rhs => rw [← List.map_id s]
  exact List.map_congr_left h

/-- First segment of a non-slash cons. -/
theorem firstSegment_cons (c : Char) (s : Str) (h : ¬ c = '/') :
    firstSegment (c :: s) = c :: firstSegment s := by
  unfold firstSegment
  rw [spanUntil, if_neg h]

/-- First segment of a slash-led string is empty. -/
theorem firstSegment_slash (s : Str) : firstSegment ('/' :: s) = [] := by
  unfold firstSegment
  rw [spanUntil, if_pos rfl]

/-- No scheme is found in a string whose first path segment has no colon,
followed by nothing or by a query part. Covers rooted paths, the "./"
disambiguation prefix, authority forms and colon-free rootless paths. -/
theorem getSchemeAux_none_path :
    ∀ (p acc full q : Str),
      ':' ∉ firstSegment p → (q = [] ∨ ∃ t, q = '?' :: t) →
      getSchemeAux full acc (p ++ q) = some ([], full) := by
  intro p
  induction p with
  | nil =>
    intro acc full q _ hq
    rw [List.nil_append]
    rcases hq with rfl | ⟨t, rfl⟩
    · rfl
    · rw [getSchemeAux]
      rw [if_neg (by decide : ¬ (('?' : Char).isAlpha = true))]
      rw [if_neg (by decide :
        ¬ ((('?' : Char).isDigit || ('?' : Char) = '+' || ('?' : Char) = '-' || ('?' : Char) = '.') = true))]
      rw [if_neg (by decide : ¬ ('?' : Char) = ':')]
  | cons c t ih =>
    intro acc full q hfs hq
    rw [List.cons_append, getSchemeAux]
    by_cases hslash : c = '/'
    · subst hslash
      rw [if_neg (by decide : ¬ (('/' : Char).isAlpha = true))]
      rw [if_neg (by decide :
        ¬ ((('/' : Char).isDigit || ('/' : Char) = '+' || ('/' : Char) = '-' || ('/' : Char) = '.') = true))]
      rw [if_neg (by decide : ¬ ('/' : Char) = ':')]
    · have hfs' : ':' ∉ firstSegment t := by
        intro hmem
        apply hfs
        rw [firstSegment_cons c t hslash]
        exact List.mem_cons_of_mem _ hmem
      have hcolon : ¬ c = ':' := by
        intro he
        apply hfs
        rw [he, firstSegment_cons ':' t (by decide)]
        exact List.mem_cons_self _ _
      by_cases ha : c.isAlpha = true
      · rw [if_pos ha]
        exact ih (acc ++ [c]) full q hfs' hq
      · rw [if_neg ha]
        by_cases hd : (c.isDigit || c = '+' || c = '-' || c = '.') = true
        · rw [if_pos hd]
          by_cases hacc : acc = []
          · rw [if_pos hacc]
          · rw [if_neg hacc]
            exact ih (acc ++ [c]) full q hfs' hq
        · rw [if_neg hd, if_neg hcolon]

/-- A string not containing `c` does not start with `c` as a singleton. -/
theorem strStarts_singleton_not_mem (c : Char) (s : Str) (h : c ∉ s) :
    strStarts [c] s = false := by
  cases s with
  | nil => rfl
  | cons d t =>
    rw [strStarts]
    have : ¬ c = d := fun he => h (he ▸ List.mem_cons_self d t)
    simp [this]

/-- `hasSuffix` by a single absent character is false. -/
theorem hasSuffix_singleton_not_mem (c : Char) (s : Str) (h : c ∉ s) :
    hasSuffix s [c] = false := by
  unfold hasSuffix
  exact strStarts_singleton_not_mem c s.reverse (fun hm => h (List.mem_reverse.mp hm))

/-- Appending a character makes it a singleton suffix. -/
theorem hasSuffix_concat (s : Str) (c : Char) : hasSuffix (s ++ [c]) [c] = true := by
  unfold hasSuffix
  rw [List.reverse_append]
  simp [strStarts]

/-- The ForceQuery/RawQuery parse of an emitted query part recovers the
leading string and an equivalent emission. -/
theorem parseQueryPart_emit (body rq : Str) (fq : Bool) (hb : '?' ∉ body) :
    ∃ fq2 rq2,
      parseQueryPart (body ++ queryEmit fq rq) = (body, fq2, rq2) ∧
      queryEmit fq2 rq2 = queryEmit fq rq := by
  unfold queryEmit
  by_cases hrq : rq = []
  · subst hrq
    by_cases hfq : fq = true
    · refine ⟨true, [], ?_, by simp [hfq]⟩
      rw [if_pos (Or.inl hfq)]
      rw [parseQueryPart]
      rw [if_pos (by
        rw [hasSuffix_concat, List.dropLast_concat]
        simp only [Bool.true_and, decide_eq_true_eq]
        simpa using hb)]
      rw [List.dropLast_concat]
    · refine ⟨false, [], ?_, by simp [hfq]⟩
      rw [if_neg (fun hc => by rcases hc with hc | hc; exact hfq hc; exact hc rfl)]
      rw [List.append_nil]
      rw [parseQueryPart]
      rw [if_neg (by
        rw [hasSuffix_singleton_not_mem '?' body hb]
        simp)]
      rw [splitFirst_not_mem '?' body hb]
  · refine ⟨false, rq, ?_, by simp [hrq]⟩
    rw [if_pos (Or.inr hrq)]
    rw [parseQueryPart]
    have hmemdrop : ('?' : Char) ∈ (body ++ '?' :: rq).dropLast := by
      rw [List.dropLast_append_of_ne_nil body (by simp : ('?' :: rq) ≠ [])]
      refine List.mem_append_right _ ?_
      cases rq with
      | nil => exact absurd rfl hrq
      | cons a l => simp [List.dropLast_cons₂]
    rw [if_neg (by
      simp only [Bool.and_eq_true, decide_eq_true_eq]
      intro hc
      exact hc.2 (by simpa using hmemdrop))]
    rw [splitFirst_append '?' body rq hb]

/-- Whatever `parseTail` returns keeps the scheme it was given. -/
theorem parseTail_scheme (scheme rest2 : Str) (fq : Bool) (rq frag : Str) (u : URL)
    (h : parseTail scheme rest2 fq rq frag = some u) : u.scheme = scheme := by
  unfold parseTail at h
  split at h
  · cases h; rfl
  · split at h
    · cases h
    · split at h
      · cases h; rfl
      · split at h
        · cases h; rfl
        · cases h; rfl

/-- A character with `schemeCharOK d = false` cannot occur in a string of
scheme characters. -/
theorem not_mem_of_schemeCharOK (s : Str) (h : ∀ c ∈ s, schemeCharOK c = true)
    (d : Char) (hd : schemeCharOK d = false) : d ∉ s := by
  intro hmem
  rw [h d hmem] at hd
  cases hd

/-- Membership in an emitted query part. -/
theorem mem_queryEmit (c : Char) (fq : Bool) (rq : Str) (hc : ¬ c = '?') (hm : c ∉ rq) :
    c ∉ queryEmit fq rq := by
  unfold queryEmit
  split
  · intro hmem
    rcases List.mem_cons.mp hmem with h | h
    · exact hc h
    · exact hm h
  · exact List.not_mem_nil c

/-- A successful parse implies the control-byte check passed. -/
theorem parse_some_not_ctl (raw : Str) (u : URL) (h : parse raw = some u) :
    containsCTL raw = false := by
  by_cases hc : containsCTL raw = true
  · rw [parse, if_pos hc] at h
    cases h
  · exact Bool.not_eq_true _ ▸ hc

/-- Parsing a string assembled from the serialization pieces reduces to
`parseTail` on the body, with an equivalent query emission. -/
theorem parse_emitted (sp body rq f sch2 : Str) (fq : Bool)
    (hctl : containsCTL (sp ++ body ++ queryEmit fq rq ++ fragEmit f) = false)
    (hsharp : '#' ∉ sp ++ body ++ queryEmit fq rq)
    (hq : '?' ∉ body)
    (hgs : getScheme (sp ++ body ++ queryEmit fq rq) = some (sch2, body ++ queryEmit fq rq)) :
    ∃ fq2 rq2,
      parse (sp ++ body ++ queryEmit fq rq ++ fragEmit f) = parseTail sch2 body fq2 rq2 f ∧
      queryEmit fq2 rq2 = queryEmit fq rq := by
  obtain ⟨fq2, rq2, hqp, hemit⟩ := parseQueryPart_emit body rq fq hq
  refine ⟨fq2, rq2, ?_, hemit⟩
  rw [parse, if_neg (by rw [hctl]; exact Bool.false_ne_true)]
  by_cases hf : f = []
  · rw [hf]
    rw [show fragEmit ([] : Str) = [] from rfl, List.append_nil]
    rw [splitFirst_not_mem '#' _ hsharp]
    dsimp only
    rw [hgs]
    dsimp only
    rw [hqp]
  · rw [show fragEmit f = '#' :: f from if_neg hf]
    rw [splitFirst_append '#' _ f hsharp]
    dsimp only
    rw [hgs]
    dsimp only
    rw [hqp]

/-- Serialization of an opaque URL. -/
theorem toStr_opq (s o h0 p q f : Str) (om fq : Bool) (ho : ¬ o = []) :
    URL.toStr ⟨s, o, h0, om, p, fq, q, f⟩ =
      (if s = [] then [] else s ++ [':']) ++ o ++ queryEmit fq q ++ fragEmit f := by
  unfold queryEmit fragEmit
  rw [URL.toStr]
  dsimp only
  rw [if_pos ho]

/-- A slash-rooted string is nonempty. -/
theorem strStarts_slash_ne_nil (p : Str) (hp : strStarts ['/'] p = true) : ¬ p = [] := by
  intro he
  rw [he] at hp
  cases hp

/-- Serialization with OmitHost set (scheme present, empty host): no "//". -/
theorem toStr_omit (s p q f : Str) (fq : Bool) (hs : ¬ s = []) (hp : strStarts ['/'] p = true) :
    URL.toStr ⟨s, [], [], true, p, fq, q, f⟩ =
      (s ++ [':']) ++ p ++ queryEmit fq q ++ fragEmit f := by
  simp [URL.toStr, queryEmit, fragEmit, hs, hp, List.append_assoc]

/-- Serialization with scheme, empty host, OmitHost clear and a rooted
path: Go emits "//" because the path is nonempty. -/
theorem toStr_abs_rooted (s p q f : Str) (fq : Bool) (hs : ¬ s = [])
    (hp : strStarts ['/'] p = true) :
    URL.toStr ⟨s, [], [], false, p, fq, q, f⟩ =
      (s ++ [':']) ++ '/' :: '/' :: p ++ queryEmit fq q ++ fragEmit f := by
  simp [URL.toStr, queryEmit, fragEmit, hs, hp, strStarts_slash_ne_nil p hp, List.append_assoc]

/-- Serialization with scheme and everything else empty. -/
theorem toStr_abs_empty (s q f : Str) (fq : Bool) (hs : ¬ s = []) :
    URL.toStr ⟨s, [], [], false, [], fq, q, f⟩ =
      (s ++ [':']) ++ queryEmit fq q ++ fragEmit f := by
  simp [URL.toStr, queryEmit, fragEmit, hs, firstSegment, spanUntil, List.append_assoc]

/-- Serialization of a schemeless, hostless URL: just the path, with the
"./" disambiguation when the first segment carries a colon. -/
theorem toStr_schemeless_hostless (p q f : Str) (fq : Bool) :
    URL.toStr ⟨[], [], [], false, p, fq, q, f⟩ =
      (if (firstSegment p).contains ':' = true then '.' :: '/' :: p else p) ++
        queryEmit fq q ++ fragEmit f := by
  simp only [URL.toStr, queryEmit, fragEmit]
  by_cases hcc : (firstSegment p).contains ':' = true
  · simp [hcc, List.append_assoc]
  · simp [hcc, List.append_assoc]

/-- The split head never contains the separator. -/
theorem splitFirst_fst_not_mem (c : Char) : ∀ s : Str, c ∉ (splitFirst c s).1 := by
  intro s
  induction s with
  | nil => exact List.not_mem_nil c
  | cons x t ih =>
    rw [splitFirst]
    by_cases hx : x = c
    · rw [if_pos hx]; exact List.not_mem_nil c
    · rw [if_neg hx]
      intro hmem
      rcases List.mem_cons.mp hmem with h | h
      · exact hx h.symm
      · exact ih h

/-- Both split parts are drawn from the input. -/
theorem splitFirst_sub (c : Char) : ∀ (s : Str) (d : Char),
    (d ∈ (splitFirst c s).1 → d ∈ s) ∧ (∀ r, (splitFirst c s).2 = some r → d ∈ r → d ∈ s) := by
  intro s
  induction s with
  | nil =>
    intro d
    exact ⟨fun h => absurd h (List.not_mem_nil d), fun r hr => by cases hr⟩
  | cons x t ih =>
    intro d
    rw [splitFirst]
    by_cases hx : x = c
    · rw [if_pos hx]
      exact ⟨fun h => absurd h (List.not_mem_nil d),
        fun r hr hd => by cases hr; exact List.mem_cons_of_mem x hd⟩
    · rw [if_neg hx]
      refine ⟨fun h => ?_, fun r hr hd => ?_⟩
      · rcases List.mem_cons.mp h with h | h
        · exact h ▸ List.mem_cons_self x t
        · exact List.mem_cons_of_mem x ((ih d).1 h)
      · exact List.mem_cons_of_mem x ((ih d).2 r hr hd)

/-- The scan head never contains the separator. -/
theorem spanUntil_fst_not_mem (c : Char) : ∀ s : Str, c ∉ (spanUntil c s).1 := by
  intro s
  induction s with
  | nil => exact List.not_mem_nil c
  | cons x t ih =>
    rw [spanUntil]
    by_cases hx : x = c
    · rw [if_pos hx]; exact List.not_mem_nil c
    · rw [if_neg hx]
      intro hmem
      rcases List.mem_cons.mp hmem with h | h
      · exact hx h.symm
      · exact ih h

/-- Both scan parts are drawn from the input. -/
theorem spanUntil_sub (c : Char) : ∀ (s : Str) (d : Char),
    (d ∈ (spanUntil c s).1 → d ∈ s) ∧ (d ∈ (spanUntil c s).2 → d ∈ s) := by
  intro s
  induction s with
  | nil =>
    intro d
    exact ⟨fun h => absurd h (List.not_mem_nil d), fun h => absurd h (List.not_mem_nil d)⟩
  | cons x t ih =>
    intro d
    rw [spanUntil]
    by_cases hx : x = c
    · rw [if_pos hx]
      exact ⟨fun h => absurd h (List.not_mem_nil d), fun h => h⟩
    · rw [if_neg hx]
      refine ⟨fun h => ?_, fun h => List.mem_cons_of_mem x ((ih d).2 h)⟩
      rcases List.mem_cons.mp h with h | h
      · exact h ▸ List.mem_cons_self x t
      · exact List.mem_cons_of_mem x ((ih d).1 h)

/-- The scan tail is empty or begins with the separator. -/
theorem spanUntil_snd_shape (c : Char) : ∀ s : Str,
    (spanUntil c s).2 = [] ∨ ∃ t, (spanUntil c s).2 = c :: t := by
  intro s
  induction s with
  | nil => exact Or.inl rfl
  | cons x t ih =>
    rw [spanUntil]
    by_cases hx : x = c
    · rw [if_pos hx]
      exact Or.inr ⟨t, by rw [hx]⟩
    · rw [if_neg hx]
      exact ih

/-- The extracted host is drawn from the authority. -/
theorem afterLastAt_sub (s : Str) (d : Char) (h : d ∈ afterLastAt s) : d ∈ s := by
  unfold afterLastAt at h
  have := List.mem_reverse.mp h
  exact List.mem_reverse.mp (List.takeWhile_subset _ this)

/-- The extracted host never contains '@'. -/
theorem afterLastAt_no_at (s : Str) : '@' ∉ afterLastAt s := by
  unfold afterLastAt
  intro h
  have := List.mem_takeWhile_imp (List.mem_reverse.mp h)
  simp at this

/-- Both query-split parts are drawn from the input. -/
theorem parseQueryPart_sub (r : Str) (d : Char) :
    (d ∈ (parseQueryPart r).1 → d ∈ r) ∧ (d ∈ (parseQueryPart r).2.2 → d ∈ r) := by
  unfold parseQueryPart
  split
  · exact ⟨fun h => List.dropLast_subset r h, fun h => absurd h (List.not_mem_nil d)⟩
  · rcases hsp : splitFirst '?' r with ⟨a, b⟩
    cases b with
    | none =>
      refine ⟨fun h => ?_, fun h => absurd h (List.not_mem_nil d)⟩
      have := (splitFirst_sub '?' r d).1
      rw [hsp] at this
      exact this h
    | some q =>
      refine ⟨fun h => ?_, fun h => ?_⟩
      · have := (splitFirst_sub '?' r d).1
        rw [hsp] at this
        exact this h
      · have := (splitFirst_sub '?' r d).2
        rw [hsp] at this
        exact this q rfl h

/-- The pre-query part never contains '?'. -/
theorem parseQueryPart_no_q (r : Str) : '?' ∉ (parseQueryPart r).1 := by
  unfold parseQueryPart
  split
  · next hcond =>
    intro hmem
    rw [Bool.and_eq_true, decide_eq_true_eq] at hcond
    exact hcond.2 (by simpa using hmem)
  · rcases hsp : splitFirst '?' r with ⟨a, b⟩
    have := splitFirst_fst_not_mem '?' r
    rw [hsp] at this
    cases b with
    | none => exact this
    | some q => exact this

/-- The rest returned by the scheme scanner is drawn from the scanned text
or is the whole original string. -/
theorem getSchemeAux_rest_sub :
    ∀ (s acc full : Str) (sch r : Str), getSchemeAux full acc s = some (sch, r) →
      ∀ d, d ∈ r → d ∈ s ∨ d ∈ full := by
  intro s
  induction s with
  | nil =>
    intro acc full sch r h d hd
    rw [getSchemeAux] at h
    cases h
    exact Or.inr hd
  | cons c t ih =>
    intro acc full sch r h d hd
    rw [getSchemeAux] at h
    by_cases ha : c.isAlpha = true
    · rw [if_pos ha] at h
      rcases ih (acc ++ [c]) full sch r h d hd with h1 | h1
      · exact Or.inl (List.mem_cons_of_mem c h1)
      · exact Or.inr h1
    · rw [if_neg ha] at h
      by_cases hdg : (c.isDigit || c = '+' || c = '-' || c = '.') = true
      · rw [if_pos hdg] at h
        by_cases hacc : acc = []
        · rw [if_pos hacc] at h; cases h; exact Or.inr hd
        · rw [if_neg hacc] at h
          rcases ih (acc ++ [c]) full sch r h d hd with h1 | h1
          · exact Or.inl (List.mem_cons_of_mem c h1)
          · exact Or.inr h1
      · rw [if_neg hdg] at h
        by_cases hc : c = ':'
        · rw [if_pos hc] at h
          by_cases hacc : acc = []
          · rw [if_pos hacc] at h; cases h
          · rw [if_neg hacc] at h
            cases h
            exact Or.inl (List.mem_cons_of_mem c hd)
        · rw [if_neg hc] at h; cases h; exact Or.inr hd

/-- Characters of valid scalar value round-trip through `Char.ofNat`. -/
theorem toNat_ofNat_valid (n : Nat) (hv : n.isValidChar) : (Char.ofNat n).toNat = n := by
  rw [Char.ofNat, dif_pos hv]
  simp [Char.toNat, Char.ofNatAux, UInt32.toNat, BitVec.toNat_ofNatLt]

/-- ASCII-letter test in terms of the scalar value. -/
theorem char_isAlpha_iff (c : Char) :
    c.isAlpha = true ↔ (65 ≤ c.toNat ∧ c.toNat ≤ 90) ∨ (97 ≤ c.toNat ∧ c.toNat ≤ 122) := by
  simp only [Char.isAlpha, Char.isUpper, Char.isLower, Bool.or_eq_true, Bool.and_eq_true,
    decide_eq_true_eq]
  constructor
  · rintro (⟨h1, h2⟩ | ⟨h1, h2⟩)
    · exact Or.inl ⟨h1, h2⟩
    · exact Or.inr ⟨h1, h2⟩
  · rintro (⟨h1, h2⟩ | ⟨h1, h2⟩)
    · exact Or.inl ⟨h1, h2⟩
    · exact Or.inr ⟨h1, h2⟩

/-- Lowercasing leaves non-uppercase characters unchanged. -/
theorem char_toLower_eq_self (c : Char) (h : ¬ (65 ≤ c.toNat ∧ c.toNat ≤ 90)) :
    c.toLower = c := by
  rw [Char.toLower]
  exact if_neg (fun hc => h ⟨hc.1, hc.2⟩)

/-- Lowercasing shifts uppercase letters by 32. -/
theorem char_toLower_upper (c : Char) (h : 65 ≤ c.toNat ∧ c.toNat ≤ 90) :
    (c.toLower).toNat = c.toNat + 32 := by
  rw [Char.toLower]
  rw [if_pos ⟨h.1, h.2⟩]
  exact toNat_ofNat_valid _ (Or.inl (by omega))

/-- Lowercasing a scheme character yields a scheme character, is idempotent
and preserves letters. -/
theorem toLower_props (c : Char) (h : schemeCharOK c = true) :
    schemeCharOK c.toLower = true ∧ Char.toLower c.toLower = c.toLower ∧
    (c.isAlpha = true → (c.toLower).isAlpha = true) := by
  by_cases hU : 65 ≤ c.toNat ∧ c.toNat ≤ 90
  · have hlow := char_toLower_upper c hU
    have halpha : (c.toLower).isAlpha = true :=
      (char_isAlpha_iff _).mpr (Or.inr (by omega))
    refine ⟨by simp [schemeCharOK, halpha], ?_, fun _ => halpha⟩
    exact char_toLower_eq_self _ (by omega)
  · rw [char_toLower_eq_self c hU]
    exact ⟨h, char_toLower_eq_self c hU, fun ha => ha⟩

/-- The scheme scanner only ever returns the empty scheme or a canonical
(lowercase, letter-led, scheme-charset) scheme. -/
theorem getSchemeAux_canon :
    ∀ (s acc full : Str), (∀ c ∈ acc, schemeCharOK c = true) →
      (∀ c t, acc = c :: t → c.isAlpha = true) →
      ∀ sch r, getSchemeAux full acc s = some (sch, r) → sch = [] ∨ schemeCanon sch := by
  intro s
  induction s with
  | nil =>
    intro acc full _ _ sch r h
    rw [getSchemeAux] at h
    cases h
    exact Or.inl rfl
  | cons c t ih =>
    intro acc full hok hhead sch r h
    rw [getSchemeAux] at h
    have hext : ∀ (hc : schemeCharOK c = true), ∀ d ∈ acc ++ [c], schemeCharOK d = true := by
      intro hc d hd
      rcases List.mem_append.mp hd with h1 | h1
      · exact hok d h1
      · rcases List.mem_singleton.mp h1 with rfl
        exact hc
    have hexthead : c.isAlpha = true → ∀ d tt, acc ++ [c] = d :: tt → d.isAlpha = true := by
      intro hca d tt heq
      cases acc with
      | nil =>
        rw [List.nil_append] at heq
        cases heq
        exact hca
      | cons a as =>
        rw [List.cons_append] at heq
        injection heq with h1 h2
        rw [← h1]
        exact hhead a as rfl
    have hextheadne : ¬ acc = [] → ∀ d tt, acc ++ [c] = d :: tt → d.isAlpha = true := by
      intro hne d tt heq
      cases acc with
      | nil => exact absurd rfl hne
      | cons a as =>
        rw [List.cons_append] at heq
        injection heq with h1 h2
        rw [← h1]
        exact hhead a as rfl
    by_cases ha : c.isAlpha = true
    · rw [if_pos ha] at h
      exact ih (acc ++ [c]) full (hext (by simp [schemeCharOK, ha])) (hexthead ha) sch r h
    · rw [if_neg ha] at h
      by_cases hdg : (c.isDigit || c = '+' || c = '-' || c = '.') = true
      · rw [if_pos hdg] at h
        by_cases hacc : acc = []
        · rw [if_pos hacc] at h; cases h; exact Or.inl rfl
        · rw [if_neg hacc] at h
          have hc : schemeCharOK c = true := by
            simp only [schemeCharOK, Bool.or_eq_true] at *
            rcases hdg with ((h1 | h1) | h1) | h1
            · exact Or.inl (Or.inl (Or.inl (Or.inr h1)))
            · exact Or.inl (Or.inl (Or.inr h1))
            · exact Or.inl (Or.inr h1)
            · exact Or.inr h1
          exact ih (acc ++ [c]) full (hext hc) (hextheadne hacc) sch r h
      · rw [if_neg hdg] at h
        by_cases hc : c = ':'
        · rw [if_pos hc] at h
          by_cases hacc : acc = []
          · rw [if_pos hacc] at h; cases h
          · rw [if_neg hacc] at h
            cases h
            right
            constructor
            · cases acc with
              | nil => exact absurd rfl hacc
              | cons a as =>
                rw [List.map_cons]
                exact (toLower_props a (hok a (List.mem_cons_self a as))).2.2
                  (hhead a as rfl)
            · intro d hd
              rcases List.mem_map.mp hd with ⟨e, he, rfl⟩
              have hp := toLower_props e (hok e he)
              exact ⟨hp.1, hp.2.1⟩
        · rw [if_neg hc] at h; cases h; exact Or.inl rfl

/-- `getScheme` outputs are canonical or empty. -/
theorem getScheme_canon (s sch r : Str) (h : getScheme s = some (sch, r)) :
    sch = [] ∨ schemeCanon sch :=
  getSchemeAux_canon s [] s (by intro c hc; cases hc) (by intro c t h2; cases h2) sch r h

/-- Every URL built by `parseTail` from clean pieces is canonical. -/
theorem parseTail_canon (scheme rest2 : Str) (fq : Bool) (rq frag : Str) (u : URL)
    (hsch : scheme = [] ∨ schemeCanon scheme)
    (hq2 : '?' ∉ rest2) (hh2 : '#' ∉ rest2) (hhq : '#' ∉ rq)
    (h : parseTail scheme rest2 fq rq frag = some u) : Canon u := by
  unfold parseTail at h
  by_cases hb1 : ¬ strStarts ['/'] rest2 = true ∧ ¬ scheme = []
  · rw [if_pos hb1] at h
    cases h
    have hst : strStarts ['/'] rest2 = false := by
      have h2 := hb1.1
      rw [Bool.not_eq_true] at h2
      exact h2
    refine ⟨hsch, ?_, ?_, hhq, ?_, ?_, ?_, ?_, ?_, ?_⟩
    · exact ⟨List.not_mem_nil _, List.not_mem_nil _, List.not_mem_nil _, List.not_mem_nil _⟩
    · exact ⟨List.not_mem_nil _, List.not_mem_nil _⟩
    · exact ⟨hq2, hh2, hst⟩
    · intro _
      exact ⟨rfl, rfl, hb1.2⟩
    · intro hc
      exact absurd rfl hc
    · intro hc
      exact Bool.noConfusion hc
    · intro _ _ _ _
      exact Or.inl rfl
    · intro hs
      exact absurd hs hb1.2
  · rw [if_neg hb1] at h
    by_cases hb2 : ¬ strStarts ['/'] rest2 = true ∧ ((firstSegment rest2).contains ':') = true
    · rw [if_pos hb2] at h
      cases h
    · rw [if_neg hb2] at h
      by_cases hb3 : (¬ scheme = [] ∨ ¬ strStarts ['/', '/', '/'] rest2 = true) ∧
          strStarts ['/', '/'] rest2 = true
      · rw [if_pos hb3] at h
        dsimp only at h
        cases h
        have hostmem : ∀ d, d ∈ afterLastAt (spanUntil '/' (rest2.drop 2)).1 → d ∈ rest2 := by
          intro d hd
          exact List.drop_subset 2 rest2
            (((spanUntil_sub '/' (rest2.drop 2) d).1) (afterLastAt_sub _ d hd))
        have pathmem : ∀ d, d ∈ (spanUntil '/' (rest2.drop 2)).2 → d ∈ rest2 := by
          intro d hd
          exact List.drop_subset 2 rest2 ((spanUntil_sub '/' (rest2.drop 2) d).2 hd)
        have hshape := spanUntil_snd_shape '/' (rest2.drop 2)
        have hshape2 : (spanUntil '/' (rest2.drop 2)).2 = [] ∨
            strStarts ['/'] (spanUntil '/' (rest2.drop 2)).2 = true := by
          rcases hshape with h1 | ⟨t, h1⟩
          · exact Or.inl h1
          · rw [h1]
            exact Or.inr (by simp [strStarts])
        refine ⟨hsch, ?_, ?_, hhq, ?_, ?_, ?_, ?_, ?_, ?_⟩
        · refine ⟨afterLastAt_no_at _, ?_, ?_, ?_⟩
          · intro hd
            exact spanUntil_fst_not_mem '/' (rest2.drop 2) (afterLastAt_sub _ '/' hd)
          · intro hd
            exact hq2 (hostmem '?' hd)
          · intro hd
            exact hh2 (hostmem '#' hd)
        · exact ⟨fun hd => hq2 (pathmem '?' hd), fun hd => hh2 (pathmem '#' hd)⟩
        · exact ⟨List.not_mem_nil _, List.not_mem_nil _, rfl⟩
        · intro hc
          exact absurd rfl hc
        · intro _
          exact hshape2
        · intro hc
          exact Bool.noConfusion hc
        · intro _ _ _ _
          exact hshape2
        · intro _ _ hroot
          rcases hshape with h1 | ⟨t, h1⟩
          · rw [h1]
            intro hmem
            rw [show firstSegment [] = [] from rfl] at hmem
            exact List.not_mem_nil ':' hmem
          · rw [h1] at hroot
            simp [strStarts] at hroot
      · rw [if_neg hb3] at h
        by_cases hb4 : ¬ scheme = [] ∧ strStarts ['/'] rest2 = true
        · rw [if_pos hb4] at h
          cases h
          have hdd : strStarts ['/', '/'] rest2 = false := by
            by_cases hd2 : strStarts ['/', '/'] rest2 = true
            · exact absurd ⟨Or.inl hb4.1, hd2⟩ hb3
            · rw [Bool.not_eq_true] at hd2
              exact hd2
          refine ⟨hsch, ?_, ?_, hhq, ?_, ?_, ?_, ?_, ?_, ?_⟩
          · exact ⟨List.not_mem_nil _, List.not_mem_nil _, List.not_mem_nil _, List.not_mem_nil _⟩
          · exact ⟨hq2, hh2⟩
          · exact ⟨List.not_mem_nil _, List.not_mem_nil _, rfl⟩
          · intro hc
            exact absurd rfl hc
          · intro hc
            exact absurd rfl hc
          · intro _
            exact ⟨rfl, hb4.1, hb4.2, hdd⟩
          · intro _ _ _ homit
            exact Bool.noConfusion homit
          · intro hs
            exact absurd hs hb4.1
        · rw [if_neg hb4] at h
          cases h
          refine ⟨hsch, ?_, ?_, hhq, ?_, ?_, ?_, ?_, ?_, ?_⟩
          · exact ⟨List.not_mem_nil _, List.not_mem_nil _, List.not_mem_nil _, List.not_mem_nil _⟩
          · exact ⟨hq2, hh2⟩
          · exact ⟨List.not_mem_nil _, List.not_mem_nil _, rfl⟩
          · intro hc
            exact absurd rfl hc
          · intro hc
            exact absurd rfl hc
          · intro hc
            exact Bool.noConfusion hc
          · intro hs _ _ _
            by_cases hst : strStarts ['/'] rest2 = true
            · exact Or.inr hst
            · exact absurd ⟨hst, hs⟩ hb1
          · intro _ _ hroot
            by_cases hcc : ((firstSegment rest2).contains ':') = true
            · refine absurd ⟨?_, hcc⟩ hb2
              intro hc
              rw [hroot] at hc
              cases hc
            · intro hmem
              exact hcc (by simpa using hmem)

/-- Every URL produced by `parse` is canonical. -/
theorem parse_canon (raw : Str) (u : URL) (h : parse raw = some u) : Canon u := by
  rw [parse] at h
  by_cases hctl : containsCTL raw = true
  · rw [if_pos hctl] at h
    cases h
  · rw [if_neg hctl] at h
    dsimp only at h
    cases hgs : getScheme (splitFirst '#' raw).1 with
    | none =>
      rw [hgs] at h
      cases h
    | some p =>
      rcases p with ⟨sch, rest1⟩
      rw [hgs] at h
      dsimp only at h
      have hsharp1 : ('#' : Char) ∉ (splitFirst '#' raw).1 := splitFirst_fst_not_mem '#' raw
      have hrest1 : ∀ d, d ∈ rest1 → d ∈ (splitFirst '#' raw).1 := by
        intro d hd
        rcases getSchemeAux_rest_sub (splitFirst '#' raw).1 [] (splitFirst '#' raw).1
          sch rest1 hgs d hd with h1 | h1
        · exact h1
        · exact h1
      have hq2 : ('?' : Char) ∉ (parseQueryPart rest1).1 := parseQueryPart_no_q rest1
      have hh2 : ('#' : Char) ∉ (parseQueryPart rest1).1 := by
        intro hd
        exact hsharp1 (hrest1 '#' ((parseQueryPart_sub rest1 '#').1 hd))
      have hhq : ('#' : Char) ∉ (parseQueryPart rest1).2.2 := by
        intro hd
        exact hsharp1 (hrest1 '#' ((parseQueryPart_sub rest1 '#').2 hd))
      exact parseTail_canon sch (parseQueryPart rest1).1 (parseQueryPart rest1).2.1
        (parseQueryPart rest1).2.2 _ u (getScheme_canon _ sch rest1 hgs) hq2 hh2 hhq h

/-- The forced-slash result always starts with '/'. -/
theorem forceLeadSlash_starts (s : Str) : strStarts ['/'] (forceLeadSlash s) = true := by
  unfold forceLeadSlash
  split
  · next hc => exact hc
  · simp [strStarts]

/-- Characters of the forced-slash result come from the input or are '/'. -/
theorem forceLeadSlash_sub (s : Str) (d : Char) (h : d ∈ forceLeadSlash s) :
    d = '/' ∨ d ∈ s := by
  unfold forceLeadSlash at h
  split at h
  · exact Or.inr h
  · rcases List.mem_cons.mp h with h1 | h1
    · exact Or.inl h1
    · exact Or.inr h1

/-- Dot-segment removal always yields a rooted path. -/
theorem removeDotSegments_starts (full : Str) :
    strStarts ['/'] (removeDotSegments full) = true := by
  have h0 : removeDotSegments full =
      forceLeadSlash (joinSlash
        (if (splitAll '/' full).getLastD [] = ['.'] ∨ (splitAll '/' full).getLastD [] = ['.', '.']
         then dotSegAux [] (splitAll '/' full) ++ [[]]
         else dotSegAux [] (splitAll '/' full))) := rfl
  rw [h0]
  exact forceLeadSlash_starts _

/-- `resolvePath` with its merge step spelled out. -/
theorem resolvePath_eq (a b : Str) :
    resolvePath a b =
      (if (if b = [] then a else if ¬ strStarts ['/'] b = true then upToLastSlash a ++ b else b)
          = [] then []
       else removeDotSegments
         (if b = [] then a else if ¬ strStarts ['/'] b = true then upToLastSlash a ++ b else b)) :=
  rfl

/-- `resolvePath` yields the empty string or a rooted path. -/
theorem resolvePath_shape (a b : Str) :
    resolvePath a b = [] ∨ strStarts ['/'] (resolvePath a b) = true := by
  rw [resolvePath_eq]
  by_cases h : (if b = [] then a else if ¬ strStarts ['/'] b = true
      then upToLastSlash a ++ b else b) = []
  · rw [if_pos h]
    exact Or.inl rfl
  · rw [if_neg h]
    exact Or.inr (removeDotSegments_starts _)

/-- The kept base prefix is drawn from the base. -/
theorem upToLastSlash_sub (s : Str) (d : Char) (h : d ∈ upToLastSlash s) : d ∈ s := by
  unfold upToLastSlash at h
  have := List.mem_reverse.mp h
  exact List.mem_reverse.mp (List.dropWhile_sublist _ |>.subset this)

/-- Characters of any split segment come from the input. -/
theorem splitAll_sub (sep : Char) :
    ∀ (s : Str) (seg : Str), seg ∈ splitAll sep s → ∀ d ∈ seg, d ∈ s := by
  intro s
  induction s with
  | nil =>
    intro seg hseg d hd
    rw [splitAll] at hseg
    rcases List.mem_singleton.mp hseg with rfl
    exact absurd hd (List.not_mem_nil d)
  | cons x t ih =>
    intro seg hseg d hd
    rw [splitAll] at hseg
    by_cases hx : x = sep
    · rw [if_pos hx] at hseg
      rcases List.mem_cons.mp hseg with h1 | h1
      · rw [h1] at hd
        exact absurd hd (List.not_mem_nil d)
      · exact List.mem_cons_of_mem x (ih seg h1 d hd)
    · rw [if_neg hx] at hseg
      cases hsp : splitAll sep t with
      | nil =>
        rw [hsp] at hseg
        rcases List.mem_singleton.mp hseg with rfl
        rcases List.mem_singleton.mp hd with rfl
        exact List.mem_cons_self _ _
      | cons hh rr =>
        rw [hsp] at hseg
        rcases List.mem_cons.mp hseg with h1 | h1
        · rw [h1] at hd
          rcases List.mem_cons.mp hd with h2 | h2
          · rw [h2]
            exact List.mem_cons_self _ _
          · exact List.mem_cons_of_mem x (ih hh (hsp ▸ List.mem_cons_self hh rr) d h2)
        · exact List.mem_cons_of_mem x (ih seg (hsp ▸ List.mem_cons_of_mem hh h1) d hd)

/-- Segments surviving dot processing come from the stack or the input. -/
theorem dotSegAux_sub :
    ∀ (segs out : List Str) (seg : Str), seg ∈ dotSegAux out segs → seg ∈ out ∨ seg ∈ segs := by
  intro segs
  induction segs with
  | nil =>
    intro out seg h
    rw [dotSegAux] at h
    exact Or.inl h
  | cons s0 rest ih =>
    intro out seg h
    rw [dotSegAux] at h
    by_cases h1 : s0 = ['.']
    · rw [if_pos h1] at h
      rcases ih out seg h with h2 | h2
      · exact Or.inl h2
      · exact Or.inr (List.mem_cons_of_mem s0 h2)
    · rw [if_neg h1] at h
      by_cases h2 : s0 = ['.', '.']
      · rw [if_pos h2] at h
        rcases ih _ seg h with h3 | h3
        · split at h3
          · exact Or.inl h3
          · exact Or.inl (List.dropLast_subset out h3)
        · exact Or.inr (List.mem_cons_of_mem s0 h3)
      · rw [if_neg h2] at h
        rcases ih _ seg h with h3 | h3
        · rcases List.mem_append.mp h3 with h4 | h4
          · exact Or.inl h4
          · rw [List.mem_singleton.mp h4]
            exact Or.inr (List.mem_cons_self _ _)
        · exact Or.inr (List.mem_cons_of_mem s0 h3)

/-- Characters of a slash-join are '/' or come from some segment. -/
theorem joinSlash_sub :
    ∀ (l : List Str) (d : Char), d ∈ joinSlash l → d = '/' ∨ ∃ seg ∈ l, d ∈ seg := by
  intro l
  induction l with
  | nil =>
    intro d h
    exact absurd h (List.not_mem_nil d)
  | cons x r ih =>
    intro d h
    cases r with
    | nil =>
      rw [show joinSlash [x] = x from rfl] at h
      exact Or.inr ⟨x, List.mem_singleton.mpr rfl, h⟩
    | cons y rr =>
      rw [show joinSlash (x :: y :: rr) = x ++ '/' :: joinSlash (y :: rr) from rfl] at h
      rcases List.mem_append.mp h with h1 | h1
      · exact Or.inr ⟨x, List.mem_cons_self x _, h1⟩
      · rcases List.mem_cons.mp h1 with h2 | h2
        · exact Or.inl h2
        · rcases ih d h2 with h3 | ⟨seg, hs, hd⟩
          · exact Or.inl h3
          · exact Or.inr ⟨seg, List.mem_cons_of_mem x hs, hd⟩

/-- Dot-segment removal introduces no character except '/'. -/
theorem removeDotSegments_chars (full : Str) (c : Char) (hc : ¬ c = '/') (hf : c ∉ full) :
    c ∉ removeDotSegments full := by
  have h0 : removeDotSegments full =
      forceLeadSlash (joinSlash
        (if (splitAll '/' full).getLastD [] = ['.'] ∨ (splitAll '/' full).getLastD [] = ['.', '.']
         then dotSegAux [] (splitAll '/' full) ++ [[]]
         else dotSegAux [] (splitAll '/' full))) := rfl
  rw [h0]
  intro h
  rcases forceLeadSlash_sub _ c h with h1 | h1
  · exact hc h1
  · rcases joinSlash_sub _ c h1 with h2 | ⟨seg, hs, hd⟩
    · exact hc h2
    · have hseg : seg ∈ dotSegAux [] (splitAll '/' full) := by
        split at hs
        · rcases List.mem_append.mp hs with h3 | h3
          · exact h3
          · rw [List.mem_singleton.mp h3] at hd
            exact absurd hd (List.not_mem_nil c)
        · exact hs
      rcases dotSegAux_sub _ [] seg hseg with h3 | h3
      · exact absurd h3 (List.not_mem_nil seg)
      · exact hf (splitAll_sub '/' full seg h3 c hd)

/-- Path resolution introduces no character except '/'. -/
theorem resolvePath_chars (a b : Str) (c : Char) (hc : ¬ c = '/') (ha : c ∉ a) (hb : c ∉ b) :
    c ∉ resolvePath a b := by
  rw [resolvePath_eq]
  by_cases h : (if b = [] then a else if ¬ strStarts ['/'] b = true
      then upToLastSlash a ++ b else b) = []
  · rw [if_pos h]
    exact List.not_mem_nil c
  · rw [if_neg h]
    apply removeDotSegments_chars _ c hc
    by_cases hb0 : b = []
    · rw [if_pos hb0]
      exact ha
    · rw [if_neg hb0]
      by_cases hs0 : ¬ strStarts ['/'] b = true
      · rw [if_pos hs0]
        intro hmem
        rcases List.mem_append.mp hmem with h1 | h1
        · exact ha (upToLastSlash_sub a c h1)
        · exact hb h1
      · rw [if_neg hs0]
        exact hb

/-- Canonicality is preserved by resolveReference when the reference has no scheme. -/
theorem resolveReference_canon (bu ref : URL) (hb : Canon bu) (hr : Canon ref)
    (hrs : ref.scheme = []) : Canon (resolveReference bu ref) := by
  obtain ⟨hb1, hb2, hb3, hb4, hb5, hb6, hb7, hb8, hb9, hb10⟩ := hb
  obtain ⟨hr1, hr2, hr3, hr4, hr5, hr6, hr7, hr8, hr9, hr10⟩ := hr
  have hopq : ref.opq = [] := by
    by_cases ho : ref.opq = []
    · exact ho
    · exact absurd hrs (hr6 ho).2.2
  have homit : ref.omitHost = false := by
    cases homit0 : ref.omitHost
    · rfl
    · exact absurd hrs (hr8 homit0).2.1
  unfold resolveReference
  by_cases hh : ref.host = []
  · rw [if_neg (fun hc => by
      rcases hc with hc | hc
      · exact hc hrs
      · exact hc hh)]
    rw [if_neg (fun hc => hc hopq)]
    dsimp only
    rw [if_pos hrs]
    refine ⟨hb1, hb2, ?_, ?_, ?_, ?_, ?_, ?_, ?_, ?_⟩
    · constructor
      · exact resolvePath_chars bu.path ref.path '?' (by decide) hb3.1 hr3.1
      · exact resolvePath_chars bu.path ref.path '#' (by decide) hb3.2 hr3.2
    · by_cases he : ref.path = [] ∧ ¬ ref.forceQuery = true ∧ ref.rawQuery = []
      · rw [if_pos he]
        exact hb4
      · rw [if_neg he]
        exact hr4
    · rw [hopq]
      exact ⟨List.not_mem_nil _, List.not_mem_nil _, rfl⟩
    · intro hc
      exact absurd hopq hc
    · intro _
      exact resolvePath_shape bu.path ref.path
    · rw [homit]
      intro hc
      exact Bool.noConfusion hc
    · intro _ _ _ _
      exact resolvePath_shape bu.path ref.path
    · intro _ _ hroot
      rcases resolvePath_shape bu.path ref.path with h1 | h1
      · rw [h1]
        intro hmem
        rw [show firstSegment [] = [] from rfl] at hmem
        exact List.not_mem_nil ':' hmem
      · rw [h1] at hroot
        cases hroot
  · rw [if_pos (Or.inr hh)]
    rw [if_pos hrs]
    refine ⟨hb1, hr2, ?_, hr4, hr5, ?_, ?_, ?_, ?_, ?_⟩
    · constructor
      · exact resolvePath_chars ref.path [] '?' (by decide) hr3.1 (List.not_mem_nil _)
      · exact resolvePath_chars ref.path [] '#' (by decide) hr3.2 (List.not_mem_nil _)
    · intro hc
      exact absurd hopq hc
    · intro _
      exact resolvePath_shape ref.path []
    · rw [homit]
      intro hc
      exact Bool.noConfusion hc
    · intro _ _ _ _
      exact resolvePath_shape ref.path []
    · intro _ hc
      exact absurd hc hh

/-- A string starting with a slash is a cons of a slash. -/
theorem strStarts_slash_shape (p : Str) (h : strStarts ['/'] p = true) : ∃ t, p = '/' :: t := by
  cases p with
  | nil => cases h
  | cons c t =>
    refine ⟨t, ?_⟩
    rw [strStarts] at h
    simp only [Bool.and_eq_true, decide_eq_true_eq] at h
    rw [h.1]

/-- The emitted query part is empty or starts with a question mark. -/
theorem queryEmit_shape (fq : Bool) (rq : Str) :
    queryEmit fq rq = [] ∨ ∃ t, queryEmit fq rq = '?' :: t := by
  unfold queryEmit
  split
  · exact Or.inr ⟨rq, rfl⟩
  · exact Or.inl rfl

/-- With a scheme and a non-rooted remainder, `parseTail` produces an opaque URL. -/
theorem parseTail_opq_eval (sch rest2 : Str) (fq : Bool) (rq frag : Str)
    (hs : ¬ sch = []) (hr : strStarts ['/'] rest2 = false) :
    parseTail sch rest2 fq rq frag = some ⟨sch, rest2, [], false, [], fq, rq, frag⟩ := by
  unfold parseTail
  rw [if_pos ⟨fun hc => by rw [hr] at hc; exact Bool.noConfusion hc, hs⟩]

/-- With a scheme and a double-slash remainder, `parseTail` splits the authority from the path. -/
theorem parseTail_authority_eval (sch h0 p : Str) (fq : Bool) (rq frag : Str)
    (hs : ¬ sch = []) (hsl : '/' ∉ h0) (hat : '@' ∉ h0)
    (hp : p = [] ∨ strStarts ['/'] p = true) :
    parseTail sch ('/' :: '/' :: (h0 ++ p)) fq rq frag =
      some ⟨sch, [], h0, false, p, fq, rq, frag⟩ := by
  have hstart : strStarts ['/'] ('/' :: '/' :: (h0 ++ p)) = true := rfl
  unfold parseTail
  rw [if_neg (fun hc => hc.1 hstart)]
  rw [if_neg (fun hc => hc.1 hstart)]
  have hcond : (¬ sch = [] ∨ ¬ strStarts ['/', '/', '/'] ('/' :: '/' :: (h0 ++ p)) = true) ∧
      strStarts ['/', '/'] ('/' :: '/' :: (h0 ++ p)) = true := ⟨Or.inl hs, rfl⟩
  rw [if_pos hcond]
  show (some ⟨sch, [], afterLastAt (spanUntil '/' (h0 ++ p)).1, false,
    (spanUntil '/' (h0 ++ p)).2, fq, rq, frag⟩ : Option URL) =
    some ⟨sch, [], h0, false, p, fq, rq, frag⟩
  rcases hp with rfl | hst
  · rw [List.append_nil, spanUntil_not_mem '/' h0 hsl]
    rw [show ((h0, ([] : Str)).1 : Str) = h0 from rfl, afterLastAt_not_mem h0 hat]
  · obtain ⟨t, rfl⟩ := strStarts_slash_shape p hst
    rw [spanUntil_append '/' h0 t hsl]
    rw [show (((h0 : Str), '/' :: t).1 : Str) = h0 from rfl, afterLastAt_not_mem h0 hat]

/-- With a scheme and a single-slash rooted remainder, `parseTail` sets OmitHost. -/
theorem parseTail_omit_eval (sch p : Str) (fq : Bool) (rq frag : Str)
    (hs : ¬ sch = []) (hp : strStarts ['/'] p = true)
    (hpp : strStarts ['/', '/'] p = false) :
    parseTail sch p fq rq frag = some ⟨sch, [], [], true, p, fq, rq, frag⟩ := by
  unfold parseTail
  rw [if_neg (fun hc => hc.1 hp)]
  rw [if_neg (fun hc => hc.1 hp)]
  rw [if_neg (fun hc => by rw [hpp] at hc; exact Bool.noConfusion hc.2)]
  rw [if_pos ⟨hs, hp⟩]

/-- Authority parse with an empty authority and a rooted path. -/
theorem parseTail_rooted_eval (sch p : Str) (fq : Bool) (rq frag : Str)
    (hs : ¬ sch = []) (hp : strStarts ['/'] p = true) :
    parseTail sch ('/' :: '/' :: p) fq rq frag =
      some ⟨sch, [], [], false, p, fq, rq, frag⟩ := by
  have hstart : strStarts ['/'] ('/' :: '/' :: p) = true := rfl
  unfold parseTail
  rw [if_neg (fun hc => hc.1 hstart)]
  rw [if_neg (fun hc => hc.1 hstart)]
  have hcond : (¬ sch = [] ∨ ¬ strStarts ['/', '/', '/'] ('/' :: '/' :: p) = true) ∧
      strStarts ['/', '/'] ('/' :: '/' :: p) = true := ⟨Or.inl hs, rfl⟩
  rw [if_pos hcond]
  show (some ⟨sch, [], afterLastAt (spanUntil '/' p).1, false, (spanUntil '/' p).2,
    fq, rq, frag⟩ : Option URL) = some ⟨sch, [], [], false, p, fq, rq, frag⟩
  obtain ⟨t, rfl⟩ := strStarts_slash_shape p hp
  rw [show spanUntil '/' ('/' :: t) = ([], '/' :: t) from by rw [spanUntil, if_pos rfl]]
  rfl

/-- A character other than the question mark missing from both parts is missing from a body followed by an emitted query. -/
theorem not_mem_qe_append (c : Char) (a : Str) (fq : Bool) (rq : Str)
    (hc : ¬ c = '?') (ha : c ∉ a) (hrq : c ∉ rq) : c ∉ a ++ queryEmit fq rq := by
  intro hm
  rcases List.mem_append.mp hm with hm | hm
  · exact ha hm
  · exact mem_queryEmit c fq rq hc hrq hm

/-- Serializing a canonical URL and parsing the result is the identity at the string level, provided the parse result carries a scheme. -/
theorem canon_roundtrip (v u : URL) (hv : Canon v) (hp : parse (URL.toStr v) = some u)
    (hu : ¬ u.scheme = []) : URL.toStr u = URL.toStr v := by
  obtain ⟨vs, vo, vh, vom, vp, vfq, vrq, vf⟩ := v
  obtain ⟨hc1, hc2, hc3, hc4, hc5, hc6, hc7, hc8, hc9, hc10⟩ := hv
  dsimp only at hc1 hc2 hc3 hc4 hc5 hc6 hc7 hc8 hc9 hc10
  by_cases hvs : vs = []
  · subst hvs
    exfalso
    have hvo : vo = [] := by
      by_cases h : vo = []
      · exact h
      · exact absurd rfl (hc6 h).2.2
    subst hvo
    have hvom : vom = false := by
      cases hvomc : vom
      · rfl
      · exact absurd rfl (hc8 hvomc).2.1
    subst hvom
    by_cases hvh : vh = []
    · subst hvh
      have hfsn : ':' ∉ firstSegment vp := by
        by_cases hroot : strStarts ['/'] vp = true
        · obtain ⟨t, rfl⟩ := strStarts_slash_shape vp hroot
          rw [firstSegment_slash]
          exact List.not_mem_nil _
        · have hroot2 : strStarts ['/'] vp = false := by
            cases hb : strStarts ['/'] vp
            · rfl
            · exact absurd hb hroot
          exact hc10 rfl rfl hroot2
      have hcontains : (firstSegment vp).contains ':' = false := by
        cases hb : (firstSegment vp).contains ':'
        · rfl
        · exact absurd (by simpa using hb) hfsn
      have hts2 : URL.toStr ⟨[], [], [], false, vp, vfq, vrq, vf⟩ =
          vp ++ queryEmit vfq vrq ++ fragEmit vf := by
        rw [toStr_schemeless_hostless]
        rw [if_neg (by rw [hcontains]; exact fun hcc => Bool.noConfusion hcc)]
      rw [hts2] at hp
      have hctl := parse_some_not_ctl _ u hp
      have hgs : getScheme (vp ++ queryEmit vfq vrq) = some ([], vp ++ queryEmit vfq vrq) :=
        getSchemeAux_none_path vp [] (vp ++ queryEmit vfq vrq) (queryEmit vfq vrq) hfsn
          (queryEmit_shape vfq vrq)
      have hsharp : ('#' : Char) ∉ vp ++ queryEmit vfq vrq :=
        not_mem_qe_append '#' vp vfq vrq (by decide) hc3.2 hc4
      obtain ⟨fq2, rq2, hpe, hemit⟩ :=
        parse_emitted [] vp vrq vf [] vfq hctl hsharp hc3.1 hgs
      simp only [List.nil_append] at hpe
      rw [hpe] at hp
      exact hu (parseTail_scheme [] vp fq2 rq2 vf u hp)
    · have hshape := hc7 hvh
      have hts2 : URL.toStr ⟨[], [], vh, false, vp, vfq, vrq, vf⟩ =
          ('/' :: '/' :: (vh ++ vp)) ++ queryEmit vfq vrq ++ fragEmit vf := by
        rw [toStr_authority [] vh vp vrq vf false vfq hvh hshape]
        rw [if_pos rfl]
        simp [List.append_assoc]
      rw [hts2] at hp
      have hctl := parse_some_not_ctl _ u hp
      have hfsn : ':' ∉ firstSegment ('/' :: '/' :: (vh ++ vp)) := by
        rw [firstSegment_slash]
        exact List.not_mem_nil _
      have hgs := getSchemeAux_none_path ('/' :: '/' :: (vh ++ vp)) []
        (('/' :: '/' :: (vh ++ vp)) ++ queryEmit vfq vrq) (queryEmit vfq vrq) hfsn
        (queryEmit_shape vfq vrq)
      have hbq : ('?' : Char) ∉ '/' :: '/' :: (vh ++ vp) := by
        intro hm
        rcases List.mem_cons.mp hm with h | hm
        · exact absurd h (by decide)
        rcases List.mem_cons.mp hm with h | hm
        · exact absurd h (by decide)
        rcases List.mem_append.mp hm with h | h
        · exact hc2.2.2.1 h
        · exact hc3.1 h
      have hsharp : ('#' : Char) ∉ ('/' :: '/' :: (vh ++ vp)) ++ queryEmit vfq vrq := by
        refine not_mem_qe_append '#' _ vfq vrq (by decide) ?_ hc4
        intro hm
        rcases List.mem_cons.mp hm with h | hm
        · exact absurd h (by decide)
        rcases List.mem_cons.mp hm with h | hm
        · exact absurd h (by decide)
        rcases List.mem_append.mp hm with h | h
        · exact hc2.2.2.2 h
        · exact hc3.2 h
      obtain ⟨fq2, rq2, hpe, hemit⟩ :=
        parse_emitted [] ('/' :: '/' :: (vh ++ vp)) vrq vf [] vfq hctl hsharp hbq hgs
      simp only [List.nil_append] at hpe
      rw [hpe] at hp
      exact hu (parseTail_scheme [] _ fq2 rq2 vf u hp)
  · have hsc : schemeCanon vs := by
      rcases hc1 with h | h
      · exact absurd h hvs
      · exact h
    have hsik : schemeInputOK vs := ⟨hsc.1, fun c hcm => (hsc.2 c hcm).1⟩
    have hmap : vs.map Char.toLower = vs := map_toLower_id vs (fun c hcm => (hsc.2 c hcm).2)
    have hsharpsp : ('#' : Char) ∉ vs ++ [':'] := by
      intro hm
      rcases List.mem_append.mp hm with h | h
      · exact not_mem_of_schemeCharOK vs hsik.2 '#' (by decide) h
      · exact absurd (List.mem_singleton.mp h) (by decide)
    have hgsgen : ∀ body : Str, getScheme ((vs ++ [':']) ++ body ++ queryEmit vfq vrq) =
        some (vs, body ++ queryEmit vfq vrq) := by
      intro body
      rw [List.append_assoc, List.append_assoc, List.singleton_append]
      rw [getScheme_found vs (body ++ queryEmit vfq vrq) hsik, hmap]
    have hsharpgen : ∀ body : Str, ('#' : Char) ∉ body →
        ('#' : Char) ∉ (vs ++ [':']) ++ body ++ queryEmit vfq vrq := by
      intro body hb hm
      rcases List.mem_append.mp hm with hm | hm
      · rcases List.mem_append.mp hm with hm | hm
        · exact hsharpsp hm
        · exact hb hm
      · exact mem_queryEmit '#' vfq vrq (by decide) hc4 hm
    by_cases hvo : vo = []
    · subst hvo
      by_cases hvh : vh = []
      · subst hvh
        cases vom with
        | true =>
          obtain ⟨-, -, hrooted, hnodbl⟩ := hc8 rfl
          have hts2 : URL.toStr ⟨vs, [], [], true, vp, vfq, vrq, vf⟩ =
              (vs ++ [':']) ++ vp ++ queryEmit vfq vrq ++ fragEmit vf :=
            toStr_omit vs vp vrq vf vfq hvs hrooted
          rw [hts2] at hp
          have hctl := parse_some_not_ctl _ u hp
          obtain ⟨fq2, rq2, hpe, hemit⟩ :=
            parse_emitted (vs ++ [':']) vp vrq vf vs vfq hctl
              (hsharpgen vp hc3.2) hc3.1 (hgsgen vp)
          rw [hpe] at hp
          rw [parseTail_omit_eval vs vp fq2 rq2 vf hvs hrooted hnodbl] at hp
          injection hp with h
          rw [← h]
          rw [toStr_omit vs vp rq2 vf fq2 hvs hrooted, hts2, hemit]
        | false =>
          rcases hc9 hvs rfl rfl rfl with hpe0 | hrooted
          · subst hpe0
            have hts2 : URL.toStr ⟨vs, [], [], false, [], vfq, vrq, vf⟩ =
                (vs ++ [':']) ++ [] ++ queryEmit vfq vrq ++ fragEmit vf := by
              rw [toStr_abs_empty vs vrq vf vfq hvs, List.append_nil]
            rw [hts2] at hp
            have hctl := parse_some_not_ctl _ u hp
            obtain ⟨fq2, rq2, hpe, hemit⟩ :=
              parse_emitted (vs ++ [':']) [] vrq vf vs vfq hctl
                (hsharpgen [] (List.not_mem_nil _)) (List.not_mem_nil _) (hgsgen [])
            rw [hpe] at hp
            rw [parseTail_opq_eval vs [] fq2 rq2 vf hvs rfl] at hp
            injection hp with h
            rw [← h]
            rw [show URL.toStr ⟨vs, [], [], false, [], fq2, rq2, vf⟩ =
                (vs ++ [':']) ++ [] ++ queryEmit fq2 rq2 ++ fragEmit vf from by
              rw [toStr_abs_empty vs rq2 vf fq2 hvs, List.append_nil], hts2, hemit]
          · have hts2 : URL.toStr ⟨vs, [], [], false, vp, vfq, vrq, vf⟩ =
                (vs ++ [':']) ++ ('/' :: '/' :: vp) ++ queryEmit vfq vrq ++ fragEmit vf := by
              rw [toStr_abs_rooted vs vp vrq vf vfq hvs hrooted]
            rw [hts2] at hp
            have hctl := parse_some_not_ctl _ u hp
            have hbsharp : ('#' : Char) ∉ '/' :: '/' :: vp := by
              intro hm
              rcases List.mem_cons.mp hm with h | hm
              · exact absurd h (by decide)
              rcases List.mem_cons.mp hm with h | hm
              · exact absurd h (by decide)
              · exact hc3.2 hm
            have hbq : ('?' : Char) ∉ '/' :: '/' :: vp := by
              intro hm
              rcases List.mem_cons.mp hm with h | hm
              · exact absurd h (by decide)
              rcases List.mem_cons.mp hm with h | hm
              · exact absurd h (by decide)
              · exact hc3.1 hm
            obtain ⟨fq2, rq2, hpe, hemit⟩ :=
              parse_emitted (vs ++ [':']) ('/' :: '/' :: vp) vrq vf vs vfq hctl
                (hsharpgen _ hbsharp) hbq (hgsgen _)
            rw [hpe] at hp
            rw [parseTail_rooted_eval vs vp fq2 rq2 vf hvs hrooted] at hp
            injection hp with h
            rw [← h]
            have hu2 : URL.toStr ⟨vs, [], [], false, vp, fq2, rq2, vf⟩ =
                (vs ++ [':']) ++ ('/' :: '/' :: vp) ++ queryEmit fq2 rq2 ++ fragEmit vf := by
              rw [toStr_abs_rooted vs vp rq2 vf fq2 hvs hrooted]
            rw [hu2, hts2, hemit]
      · have hshape := hc7 hvh
        have hvom : vom = false := by
          cases hb : vom
          · rfl
          · exact absurd (hc8 hb).1 hvh
        subst hvom
        have hts2 : URL.toStr ⟨vs, [], vh, false, vp, vfq, vrq, vf⟩ =
            (vs ++ [':']) ++ ('/' :: '/' :: (vh ++ vp)) ++ queryEmit vfq vrq ++ fragEmit vf := by
          rw [toStr_authority vs vh vp vrq vf false vfq hvh hshape, if_neg hvs]
          simp [List.append_assoc]
        rw [hts2] at hp
        have hctl := parse_some_not_ctl _ u hp
        have hbsharp : ('#' : Char) ∉ '/' :: '/' :: (vh ++ vp) := by
          intro hm
          rcases List.mem_cons.mp hm with h | hm
          · exact absurd h (by decide)
          rcases List.mem_cons.mp hm with h | hm
          · exact absurd h (by decide)
          rcases List.mem_append.mp hm with h | h
          · exact hc2.2.2.2 h
          · exact hc3.2 h
        have hbq : ('?' : Char) ∉ '/' :: '/' :: (vh ++ vp) := by
          intro hm
          rcases List.mem_cons.mp hm with h | hm
          · exact absurd h (by decide)
          rcases List.mem_cons.mp hm with h | hm
          · exact absurd h (by decide)
          rcases List.mem_append.mp hm with h | h
          · exact hc2.2.2.1 h
          · exact hc3.1 h
        obtain ⟨fq2, rq2, hpe, hemit⟩ :=
          parse_emitted (vs ++ [':']) ('/' :: '/' :: (vh ++ vp)) vrq vf vs vfq hctl
            (hsharpgen _ hbsharp) hbq (hgsgen _)
        rw [hpe] at hp
        rw [parseTail_authority_eval vs vh vp fq2 rq2 vf hvs hc2.2.1 hc2.1 hshape] at hp
        injection hp with h
        rw [← h]
        have hu2 : URL.toStr ⟨vs, [], vh, false, vp, fq2, rq2, vf⟩ =
            (vs ++ [':']) ++ ('/' :: '/' :: (vh ++ vp)) ++ queryEmit fq2 rq2 ++ fragEmit vf := by
          rw [toStr_authority vs vh vp rq2 vf false fq2 hvh hshape, if_neg hvs]
          simp [List.append_assoc]
        rw [hu2, hts2, hemit]
    · have hts2 : URL.toStr ⟨vs, vo, vh, vom, vp, vfq, vrq, vf⟩ =
          (vs ++ [':']) ++ vo ++ queryEmit vfq vrq ++ fragEmit vf := by
        rw [toStr_opq vs vo vh vp vrq vf vom vfq hvo]
        rw [if_neg hvs]
      rw [hts2] at hp
      have hctl := parse_some_not_ctl _ u hp
      obtain ⟨fq2, rq2, hpe, hemit⟩ :=
        parse_emitted (vs ++ [':']) vo vrq vf vs vfq hctl
          (hsharpgen vo hc5.2.1) hc5.1 (hgsgen vo)
      rw [hpe] at hp
      rw [parseTail_opq_eval vs vo fq2 rq2 vf hvs hc5.2.2] at hp
      injection hp with h
      rw [← h]
      rw [toStr_opq vs vo [] [] rq2 vf false fq2 hvo, if_neg hvs, hts2, hemit]

/-- C9: resolution is idempotent on absolute results. If `resolveURL base ref` produced the string `s`, and `s` parses to an absolute URL, then `resolveURL base s = s`: the program returns an already-absolute URL unchanged as its normalized string form, and that form is a fixed point of resolution. -/
theorem resolveURL_idem (base ref s : Str) (u : URL)
    (h1 : resolveURL base ref = s) (h2 : parse s = some u) (h3 : u.isAbs = true) :
    resolveURL base s = s := by
  have hu : ¬ u.scheme = [] := by
    simp only [URL.isAbs, decide_eq_true_eq] at h3
    exact h3
  have hmain : URL.toStr u = s := by
    unfold resolveURL at h1
    cases hpr : parse ref with
    | none =>
      rw [hpr] at h1
      dsimp only at h1
      exfalso
      rw [← h1] at h2
      have hpn : parse ([] : Str) = some ⟨[], [], [], false, [], false, [], []⟩ := by decide
      rw [hpn] at h2
      injection h2 with h
      exact hu (by rw [← h])
    | some r =>
      rw [hpr] at h1
      dsimp only at h1
      by_cases hra : r.isAbs = true
      · rw [if_pos hra] at h1
        rw [← h1] at h2
        have hrt := canon_roundtrip r u (parse_canon ref r hpr) h2 hu
        rw [hrt, h1]
      · rw [if_neg hra] at h1
        cases hpb : parse base with
        | none =>
          rw [hpb] at h1
          dsimp only at h1
          exfalso
          rw [← h1] at h2
          have hpn : parse ([] : Str) = some ⟨[], [], [], false, [], false, [], []⟩ := by decide
          rw [hpn] at h2
          injection h2 with h
          exact hu (by rw [← h])
        | some bu =>
          rw [hpb] at h1
          dsimp only at h1
          have hrs : r.scheme = [] := by
            simp only [URL.isAbs, decide_eq_true_eq, not_not] at hra
            exact hra
          have hcres := resolveReference_canon bu r (parse_canon base bu hpb)
            (parse_canon ref r hpr) hrs
          rw [← h1] at h2
          have hrt := canon_roundtrip (resolveReference bu r) u hcres h2 hu
          rw [hrt, h1]
  unfold resolveURL
  rw [h2]
  dsimp only
  rw [if_pos h3]
  exact hmain

/-- Concrete instance of the idempotence theorem at base https://example.com/ and reference /a. -/
theorem resolveURL_idem_witness :
    resolveURL exBase ['/', 'a'] = "https://example.com/a".toList ∧
    parse "https://example.com/a".toList = some uWitness ∧
    uWitness.isAbs = true ∧
    resolveURL exBase "https://example.com/a".toList = "https://example.com/a".toList :=
  ⟨by decide, by decide, by decide,
    resolveURL_idem exBase ['/', 'a'] "https://example.com/a".toList uWitness
      (by decide) (by decide) (by decide)⟩
